import Mathlib

/-!
Shallow embedding of the poker engine in `src/backend/src/engine.py`
(LLM_poker_project backend): the hand evaluator (`HandEvaluator`) and the
betting state machine (`PokerEngine`), together with theorems settling the
frozen claims about them.

Python integers are modelled as `Int` (chips, bets, pot, amounts) or `Nat`
(indices, counters that are only incremented/reset).  Python lists are Lean
lists; `list.pop()` pops from the end.  `random.shuffle` is modelled by
passing the shuffled deck as an explicit argument to `startHand`.
-/

namespace Poker

/-- The four suits (`schemas.Suit`). -/
inductive Suit
| Hearts | Diamonds | Clubs | Spades
deriving DecidableEq, Repr

instance : Fintype Suit :=
  ⟨⟨{Suit.Hearts, Suit.Diamonds, Suit.Clubs, Suit.Spades}, by decide⟩, by
    intro x; cases x <;> decide⟩

/-- A card: rank 2..14 (`schemas.Rank` is an int enum) and a suit. -/
structure Card where
  rank : Nat
  suit : Suit
deriving DecidableEq, Repr

/-- `HandRank` enum from engine.py. -/
inductive HandRank
| HIGH_CARD | PAIR | TWO_PAIR | THREE_OF_A_KIND | STRAIGHT
| FLUSH | FULL_HOUSE | FOUR_OF_A_KIND | STRAIGHT_FLUSH | ROYAL_FLUSH
deriving DecidableEq, Repr

/-- The numeric `.value` of the `HandRank` enum (1..10). -/
def HandRank.val : HandRank → Nat
| .HIGH_CARD => 1
| .PAIR => 2
| .TWO_PAIR => 3
| .THREE_OF_A_KIND => 4
| .STRAIGHT => 5
| .FLUSH => 6
| .FULL_HOUSE => 7
| .FOUR_OF_A_KIND => 8
| .STRAIGHT_FLUSH => 9
| .ROYAL_FLUSH => 10

/-- Python's `>` on lists of ints: strict lexicographic comparison, where a
proper prefix is smaller. -/
def listGT : List Nat → List Nat → Bool
| [], _ => false
| _ :: _, [] => true
| a :: as, b :: bs => if b < a then true else if a < b then false else listGT as bs

/-- Python's `>` on `(rank_value, tiebreakers)` tuples: compare the first
component, then the list lexicographically. -/
def pairGT (x y : Nat × List Nat) : Bool :=
  if y.1 < x.1 then true
  else if x.1 < y.1 then false
  else listGT x.2 y.2

/-- Insert into a descending-sorted list, after all entries not strictly
below the new element (this is what makes the sort stable). -/
def insertDescBy (gt : α → α → Bool) (x : α) : List α → List α
| [] => [x]
| y :: ys => if gt x y then x :: y :: ys else y :: insertDescBy gt x ys

/-- Stable descending insertion sort; models Python's stable
`sorted(..., reverse=True)`. -/
def sortDescBy (gt : α → α → Bool) (l : List α) : List α :=
  l.foldl (fun acc x => insertDescBy gt x acc) []

/-- `sorted(cards, key=rank, reverse=True)` from `HandEvaluator.evaluate`. -/
def sortCardsDesc (cards : List Card) : List Card :=
  sortDescBy (fun c d => d.rank < c.rank) cards

/-- `sorted(counts.items(), key=lambda x: (x[1], x[0]), reverse=True)`:
the distinct ranks each paired with their multiplicity, sorted by
(count, rank) descending. -/
def sortedCounts (ranks : List Nat) : List (Nat × Nat) :=
  sortDescBy
    (fun a b => if b.2 < a.2 then true else if a.2 < b.2 then false else b.1 < a.1)
    (ranks.dedup.map (fun r => (r, ranks.count r)))

/-- The rank-dependent part of `HandEvaluator._evaluate_five`: after
computing `is_flush`, the source only consumes the rank list (sorted
descending, so `ranks[0] - ranks[4]` subtracts a smaller from a larger
value) and the flush boolean. -/
def evalRanks (is_flush : Bool) (ranks0 : List Nat) : HandRank × List Nat :=
  let is_straight0 := ranks0.dedup.length == 5 && ranks0.headD 0 - ranks0.getD 4 0 == 4
  -- Wheel check: A, 5, 4, 3, 2 -> 14, 5, 4, 3, 2
  let wheel := ranks0 == [14, 5, 4, 3, 2]
  let is_straight := is_straight0 || wheel
  let ranks := if wheel then [5, 4, 3, 2, 1] else ranks0
  if is_straight && is_flush then
    if ranks.headD 0 == 14 && ranks.getD 4 0 == 10 then (HandRank.ROYAL_FLUSH, [])
    else (HandRank.STRAIGHT_FLUSH, ranks)
  else
    let sc := sortedCounts ranks
    let c0 := sc.headD (0, 0)
    let c1 := sc.getD 1 (0, 0)
    if c0.2 == 4 then (HandRank.FOUR_OF_A_KIND, [c0.1, c1.1])
    else if c0.2 == 3 && c1.2 == 2 then (HandRank.FULL_HOUSE, [c0.1, c1.1])
    else if is_flush then (HandRank.FLUSH, ranks)
    else if is_straight then (HandRank.STRAIGHT, ranks)
    else if c0.2 == 3 then (HandRank.THREE_OF_A_KIND, c0.1 :: ranks.filter (fun x => x != c0.1))
    else if c0.2 == 2 && c1.2 == 2 then
      (HandRank.TWO_PAIR, c0.1 :: c1.1 :: ranks.filter (fun x => !(x == c0.1 || x == c1.1)))
    else if c0.2 == 2 then (HandRank.PAIR, c0.1 :: ranks.filter (fun x => x != c0.1))
    else (HandRank.HIGH_CARD, ranks)

/-- `HandEvaluator._evaluate_five`: `is_flush` is whether all five suits
coincide (`len(set(suits)) == 1`); the rest is `evalRanks`. -/
def evaluateFive (cards : List Card) : HandRank × List Nat :=
  evalRanks ((cards.map (fun c => c.suit)).dedup.length == 1) (cards.map (fun c => c.rank))

/-- The loop body of `HandEvaluator.evaluate`: replace the best hand seen
so far when the new combination's rank value is higher, or when it is equal
and its tiebreakers compare greater. -/
def evalStep (best : HandRank × List Nat) (combo : List Card) : HandRank × List Nat :=
  let r := evaluateFive (sortCardsDesc combo)
  if best.1.val < r.1.val then r
  else if r.1.val == best.1.val && listGT r.2 best.2 then (best.1, r.2)
  else best

/-- `HandEvaluator.evaluate`: fewer than five cards short-circuits;
otherwise fold over every 5-card combination, keeping the best
`(rank.value, tiebreakers)` seen so far exactly as the source does. -/
def evaluate (cards : List Card) : HandRank × List Nat :=
  if cards.length < 5 then (HandRank.HIGH_CARD, [])
  else (List.sublistsLen 5 cards).foldl evalStep (HandRank.HIGH_CARD, [])

/-- The `(category.rank_value, tiebreak_sequence)` view under which the
source compares evaluations. -/
def pval (x : HandRank × List Nat) : Nat × List Nat := (x.1.val, x.2)

/-- `GameState` enum from engine.py. -/
inductive GameState
| PREFLOP | FLOP | TURN | RIVER | SHOWDOWN | FINISHED
deriving DecidableEq, Repr

/-- `Player` dataclass from engine.py. -/
structure Player where
  id : String
  name : String
  chips : Int
  hand : List Card := []
  is_active : Bool := true
  current_bet : Int := 0
  is_all_in : Bool := false
  has_acted : Bool := false
deriving DecidableEq, Repr

/-- Out-of-range list reads are modelled with this placeholder; on reachable
states every read index is in range, so the placeholder is never observed. -/
def dummyPlayer : Player := { id := "", name := "", chips := 0 }

/-- `PokerEngine` fields (the `__init__` defaults are the field defaults). -/
structure EngineState where
  players : List Player := []
  community_cards : List Card := []
  deck : List Card := []
  pot : Int := 0
  current_bet : Int := 0
  state : GameState := GameState.PREFLOP
  dealer_idx : Nat := 0
  current_player_idx : Nat := 0
  small_blind : Int := 10
  big_blind : Int := 20
  min_raise : Int := 20
  raise_count : Nat := 0
  max_raises_per_street : Nat := 4
  winners : List String := []
  winning_hand_rank : String := ""
deriving DecidableEq, Repr

/-- Python `list.pop()`: remove and return the last element. -/
def popCard (deck : List Card) : Option Card × List Card :=
  match deck.getLast? with
  | none => (none, deck)
  | some c => (some c, deck.dropLast)

/-- `PokerEngine._place_bet_logic`, acting on the player at index `i`. -/
def placeBetLogic (s : EngineState) (i : Nat) (amount : Int) : EngineState :=
  let p := s.players.getD i dummyPlayer
  let actual := min p.chips amount
  let p := { p with chips := p.chips - actual, current_bet := p.current_bet + actual }
  let p := if p.chips == 0 then { p with is_all_in := true } else p
  let s := { s with players := s.players.set i p, pot := s.pot + actual }
  if s.current_bet < p.current_bet then
    let diff := p.current_bet - s.current_bet
    let s := if s.min_raise < diff then { s with min_raise := diff } else s
    { s with current_bet := p.current_bet }
  else s

/-- Per-player reset at the top of `start_hand`. -/
def resetPlayerForHand (p : Player) : Player :=
  { p with hand := [], is_active := decide (0 < p.chips), current_bet := 0,
           is_all_in := false, has_acted := false }

/-- One dealing pass of `start_hand`: each active player (in seat order)
receives one card popped from the deck. -/
def dealRound : List Player → List Card → List Player × List Card
| [], deck => ([], deck)
| p :: ps, deck =>
  if p.is_active then
    match popCard deck with
    | (some c, deck1) =>
      let r := dealRound ps deck1
      ({ p with hand := p.hand ++ [c] } :: r.1, r.2)
    | (none, deck1) =>
      let r := dealRound ps deck1
      (p :: r.1, r.2)
  else
    let r := dealRound ps deck
    (p :: r.1, r.2)

/-- The `while ... and steps < len(players)` scan in `start_hand` looking for
the first active, non-all-in seat; `fuel` is the remaining step budget. -/
def startHandScan (players : List Player) (idx : Nat) : Nat → Nat
| 0 => idx
| fuel + 1 =>
  let p := players.getD idx dummyPlayer
  if p.is_active && !p.is_all_in then idx
  else startHandScan players ((idx + 1) % players.length) fuel

/-- The reset phase of `start_hand`: rotate the dealer, install the fresh
shuffled deck, clear the table and reset every player. -/
def startHandReset (s : EngineState) (shuffled : List Card) : EngineState :=
  let s := { s with dealer_idx := (s.dealer_idx + 1) % s.players.length }
  { s with
    deck := shuffled, community_cards := [], pot := 0,
    current_bet := 0, min_raise := s.big_blind,
    state := GameState.PREFLOP, winners := [], winning_hand_rank := "",
    players := s.players.map resetPlayerForHand }

/-- The two hole-card dealing passes of `start_hand`. -/
def startHandDealt (s : EngineState) : EngineState :=
  let d1 := dealRound s.players s.deck
  let d2 := dealRound d1.1 d1.2
  { s with players := d2.1, deck := d2.2 }

/-- `PokerEngine.start_hand`.  The result of `random.shuffle` is passed in as
`shuffled`.  Python raises `ValueError` after the reset phase when fewer than
two players are funded; the pair result carries the state at the raise point
(mutations before the raise are kept, exactly as in the source).  An empty
player list makes Python fail on `% 0` before any mutation. -/
def startHand (s : EngineState) (shuffled : List Card) : EngineState × Option String :=
  let n := s.players.length
  if n == 0 then (s, some "integer division or modulo by zero")
  else
    let s := startHandReset s shuffled
    let active_count := (s.players.filter (fun p => p.is_active)).length
    if active_count < 2 then (s, some "Not enough players")
    else
      let s := startHandDealt s
      let sb_idx := (s.dealer_idx + 1) % n
      let bb_idx := (s.dealer_idx + 2) % n
      let s := placeBetLogic s sb_idx s.small_blind
      let s := placeBetLogic s bb_idx s.big_blind
      let idx := startHandScan s.players ((s.dealer_idx + 3) % n) n
      ({ s with current_player_idx := idx, current_bet := s.big_blind,
                raise_count := 0 }, none)

/-- `best[1].name.replace("_", " ").title()` from `_resolve_hand`. -/
def rankTitle : HandRank → String
| .HIGH_CARD => "High Card"
| .PAIR => "Pair"
| .TWO_PAIR => "Two Pair"
| .THREE_OF_A_KIND => "Three Of A Kind"
| .STRAIGHT => "Straight"
| .FLUSH => "Flush"
| .FULL_HOUSE => "Full House"
| .FOUR_OF_A_KIND => "Four Of A Kind"
| .STRAIGHT_FLUSH => "Straight Flush"
| .ROYAL_FLUSH => "Royal Flush"

/-- `player.chips += amt` for the player at index `i`. -/
def addChipsAt (players : List Player) (i : Nat) (amt : Int) : List Player :=
  let p := players.getD i dummyPlayer
  players.set i { p with chips := p.chips + amt }

/-- Index of the first list element satisfying `p`
(`next((x for x in ... if ...), None)` and `actives_total[0]`). -/
def findSeat (p : Player → Bool) : List Player → Option Nat
| [] => none
| x :: xs => if p x then some 0 else (findSeat p xs).map (fun i => i + 1)

/-- The sorted showdown evaluation of `_resolve_hand`: for each active seat
index, the evaluation of hole plus community cards, stably sorted by
`(rank.value, tiebreakers)` descending as Python's stable `sort` does. -/
def showdownResults (s : EngineState) : List (Nat × HandRank × List Nat) :=
  let activeIdx := (List.range s.players.length).filter
    (fun i => (s.players.getD i dummyPlayer).is_active)
  let results := activeIdx.map (fun i =>
    let p := s.players.getD i dummyPlayer
    let e := evaluate (p.hand ++ s.community_cards)
    (i, e.1, e.2))
  sortDescBy (fun a b => pairGT (a.2.1.val, a.2.2) (b.2.1.val, b.2.2)) results

/-- `winners_list` of `_resolve_hand` (as seat indices): the prefix of the
sorted results tying with the best evaluation. -/
def winnersIdxOf (s : EngineState) : List Nat :=
  match showdownResults s with
  | [] => []
  | best :: _ =>
    ((showdownResults s).filter
      (fun r => r.2.1.val == best.2.1.val && r.2.2 == best.2.2)).map (fun r => r.1)

/-- `PokerEngine._resolve_hand`; `winner_by_fold` is the index of the
uncontested winner, when there is one. -/
def resolveHand (s : EngineState) (winner_by_fold : Option Nat) : EngineState :=
  let s := { s with state := GameState.SHOWDOWN, winners := [], winning_hand_rank := "" }
  match winner_by_fold with
  | some i =>
    let s := { s with
      players := addChipsAt s.players i s.pot,
      winners := [(s.players.getD i dummyPlayer).id],
      winning_hand_rank := "Opponents Folded" }
    { s with state := GameState.FINISHED }
  | none =>
    match showdownResults s with
    | [] => s
    | best :: _ =>
      let winnersIdx := winnersIdxOf s
      let split := Int.fdiv s.pot winnersIdx.length
      let rem := Int.fmod s.pot winnersIdx.length
      let s := { s with players := winnersIdx.foldl (fun pl i => addChipsAt pl i split) s.players }
      let s := { s with players := addChipsAt s.players (winnersIdx.headD 0) rem }
      let s := { s with
        winners := winnersIdx.map (fun i => (s.players.getD i dummyPlayer).id),
        winning_hand_rank := rankTitle best.2.1 }
      { s with state := GameState.FINISHED }

/-- The index scan at the top of `_next_street` (wrap forward from the seat
after the dealer; after each step, stop if everyone is all-in or folded). -/
def nextStreetScan (players : List Player) (idx : Nat) : Nat → Nat
| 0 => idx
| fuel + 1 =>
  let p := players.getD idx dummyPlayer
  if p.is_active && !p.is_all_in then idx
  else
    let idx1 := (idx + 1) % players.length
    if players.all (fun q => q.is_all_in || !q.is_active) then idx1
    else nextStreetScan players idx1 fuel

/-- Deal `n` community cards, popping each from the deck. -/
def dealCommunity : Nat → EngineState → EngineState
| 0, s => s
| n + 1, s =>
  match popCard s.deck with
  | (some c, d) => dealCommunity n { s with deck := d, community_cards := s.community_cards ++ [c] }
  | (none, d) => dealCommunity n { s with deck := d }

/-- Number of players still able to act (`count_actions_needed`). -/
def needCount (s : EngineState) : Nat :=
  (s.players.filter (fun p => p.is_active && !p.is_all_in)).length

mutual

/-- `PokerEngine._next_street`.  The run-out `while` loop recursion is made
structural with a fuel argument; on every state the engine can actually be
in, street ranks strictly increase so a small fuel is exact. -/
def nextStreetAux : Nat → EngineState → EngineState
| 0, s => s
| fuel + 1, s =>
  let s := { s with
    current_bet := 0, min_raise := s.big_blind, raise_count := 0,
    players := s.players.map (fun (p : Player) => { p with current_bet := 0, has_acted := false }) }
  let s := { s with
    current_player_idx :=
      nextStreetScan s.players ((s.dealer_idx + 1) % s.players.length) (s.players.length + 1) }
  match s.state with
  | GameState.PREFLOP =>
    let s := dealCommunity 3 { s with state := GameState.FLOP }
    if needCount s < 2 then runoutLoop fuel s else s
  | GameState.FLOP =>
    let s := dealCommunity 1 { s with state := GameState.TURN }
    if needCount s < 2 then runoutLoop fuel s else s
  | GameState.TURN =>
    let s := dealCommunity 1 { s with state := GameState.RIVER }
    if needCount s < 2 then runoutLoop fuel s else s
  | GameState.RIVER => resolveHand s none
  | _ =>
    if needCount s < 2 then runoutLoop fuel s else s

/-- The `while self.state != FINISHED` run-out loop inside `_next_street`. -/
def runoutLoop : Nat → EngineState → EngineState
| 0, s => s
| fuel + 1, s =>
  if s.state != GameState.FINISHED then
    let s1 := nextStreetAux fuel s
    if s1.state == GameState.FINISHED then s1 else runoutLoop fuel s1
  else s

end

/-- `_next_street` entry point; fuel 8 covers the deepest possible run-out
(PREFLOP through RIVER plus resolution). -/
def nextStreet (s : EngineState) : EngineState := nextStreetAux 8 s

/-- The seat-advancing `while steps <= len(self.players)` loop of
`_advance_turn`. -/
def advanceScanLoop (players : List Player) (idx : Nat) : Nat → Nat
| 0 => idx
| fuel + 1 =>
  let idx1 := (idx + 1) % players.length
  let p := players.getD idx1 dummyPlayer
  if p.is_active && !p.is_all_in then idx1
  else advanceScanLoop players idx1 fuel

/-- `PokerEngine._advance_turn`. -/
def advanceTurn (s : EngineState) : EngineState :=
  let active_players := s.players.filter (fun p => p.is_active && !p.is_all_in)
  let actives_total := s.players.filter (fun p => p.is_active)
  if actives_total.length == 1 then
    resolveHand s (some ((findSeat (fun p => p.is_active) s.players).getD 0))
  else
    let bets_match := active_players.all (fun p => p.current_bet == s.current_bet)
    let all_acted := active_players.all (fun p => p.has_acted)
    if (bets_match && all_acted) || active_players.length == 0 then
      nextStreet s
    else
      { s with current_player_idx :=
        advanceScanLoop s.players s.current_player_idx (s.players.length + 1) }

/-- The common tail of `player_action` after a non-raising branch: mark the
actor as having acted, reset responders on raise/allin, advance the turn. -/
def actionTail (s : EngineState) (pi : Nat) (action : String) : EngineState :=
  let q := s.players.getD pi dummyPlayer
  let q := { q with has_acted := true }
  let s := { s with players := s.players.set pi q }
  let s :=
    if action == "raise" || action == "allin" then
      { s with players := s.players.map (fun other =>
          if other != q && other.is_active && !other.is_all_in then
            { other with has_acted := false }
          else other) }
    else s
  advanceTurn s

/-- `PokerEngine.player_action`.  The pair result carries the engine state at
the point the call returned or raised, plus the error message if it raised;
every `raise` in the source happens before any mutation in that branch. -/
def playerAction (s : EngineState) (player_id : String) (action : String)
    (amount : Int) : EngineState × Option String :=
  match findSeat (fun x => x.id == player_id) s.players with
  | none => (s, some "Player not found")
  | some pi =>
    let p := s.players.getD pi dummyPlayer
    if p != s.players.getD s.current_player_idx dummyPlayer then
      (s, some "Not your turn")
    else if action == "fold" then
      (actionTail { s with players := s.players.set pi { p with is_active := false } } pi action, none)
    else if action == "check" then
      if p.current_bet < s.current_bet then (s, some "Cannot check, must call")
      else (actionTail s pi action, none)
    else if action == "call" then
      let needed := s.current_bet - p.current_bet
      (actionTail (placeBetLogic s pi needed) pi action, none)
    else if action == "raise" then
      if s.max_raises_per_street ≤ s.raise_count then
        (s, some "Raise cap reached")
      else if amount < s.current_bet + s.min_raise && amount < p.chips + p.current_bet then
        (s, some "Raise too small")
      else
        let added := amount - p.current_bet
        if p.chips < added then (s, some "Not enough chips")
        else
          let s := placeBetLogic s pi added
          let s := { s with raise_count := s.raise_count + 1 }
          (actionTail s pi action, none)
    else if action == "allin" then
      let s :=
        if s.current_bet < p.chips + p.current_bet then
          { s with raise_count := s.raise_count + 1 }
        else s
      (actionTail (placeBetLogic s pi p.chips) pi action, none)
    else
      -- unrecognised action string: the source silently falls through
      (actionTail s pi action, none)

/-- The `is_actual_showdown` test of `get_public_game_state`. -/
def isActualShowdown (s : EngineState) : Bool :=
  (s.state == GameState.SHOWDOWN || s.state == GameState.FINISHED)
  && !(s.winning_hand_rank == "" || s.winning_hand_rank == "Opponents Folded")
  && !s.winners.isEmpty

/-- The hole-card field `get_public_game_state` exposes for player `p` to
`observer_id`: `[None] * len(p.hand)` when masked, the cards otherwise. -/
def publicHand (s : EngineState) (observer_id : String) (p : Player) : List (Option Card) :=
  if p.id != observer_id && !(isActualShowdown s && p.is_active) then
    List.replicate p.hand.length none
  else p.hand.map some

/-- The masked hole-card lists of all seats, in seat order. -/
def publicHands (s : EngineState) (observer_id : String) : List (List (Option Card)) :=
  s.players.map (publicHand s observer_id)

/-- Sum of all players' chips. -/
def sumChips (s : EngineState) : Int :=
  (s.players.map (fun p => p.chips)).sum

/-- The spec's `max(p.current_bet for p in players if p.is_active)`,
as a fold with neutral element 0 (street bets are nonnegative). -/
def maxActiveBet (players : List Player) : Int :=
  ((players.filter (fun p => p.is_active)).map (fun p => p.current_bet)).foldl max 0

/-- The full 52-card deck in `reset_deck` construction order (one legal
outcome of the shuffle). -/
def fullDeck : List Card :=
  (List.range 13).flatMap (fun i =>
    [Card.mk (i + 2) Suit.Hearts, Card.mk (i + 2) Suit.Diamonds,
     Card.mk (i + 2) Suit.Clubs, Card.mk (i + 2) Suit.Spades])

/-! ### Order lemmas for the Python tuple/list comparison -/

theorem listGT_cons_iff (a b : Nat) (as bs : List Nat) :
    listGT (a :: as) (b :: bs) = true ↔ b < a ∨ (a = b ∧ listGT as bs = true) := by
  simp only [listGT]
  by_cases h : b < a
  · simp [h]
  · by_cases h2 : a < b
    · rw [if_neg h, if_pos h2]
      constructor
      · intro hh; exact absurd hh (by simp)
      · rintro (hh | ⟨hh, _⟩) <;> omega
    · have he : a = b := by omega
      simp [h, h2, he]

theorem listGT_cons_false_iff (a b : Nat) (as bs : List Nat) :
    listGT (a :: as) (b :: bs) = false ↔ ¬(b < a ∨ (a = b ∧ listGT as bs = true)) := by
  rw [← listGT_cons_iff]
  cases listGT (a :: as) (b :: bs) <;> simp

theorem listGT_irrefl (a : List Nat) : listGT a a = false := by
  induction a with
  | nil => rfl
  | cons x xs ih =>
    rw [Bool.eq_false_iff]
    intro h
    rw [listGT_cons_iff] at h
    rcases h with h | ⟨_, h⟩
    · omega
    · rw [ih] at h; cases h

theorem listGT_trans : ∀ a b c : List Nat,
    listGT a b = true → listGT b c = true → listGT a c = true := by
  intro a
  induction a with
  | nil => intro b c h1 _; simp [listGT] at h1
  | cons x xs ih =>
    intro b c h1 h2
    cases b with
    | nil => simp [listGT] at h2
    | cons y ys =>
      cases c with
      | nil => rfl
      | cons z zs =>
        rw [listGT_cons_iff] at h1 h2 ⊢
        rcases h1 with h1 | ⟨he1, h1⟩
        · rcases h2 with h2 | ⟨he2, h2⟩
          · left; omega
          · left; omega
        · rcases h2 with h2 | ⟨he2, h2⟩
          · left; omega
          · right; exact ⟨by omega, ih ys zs h1 h2⟩

theorem listGT_total : ∀ a b : List Nat,
    listGT a b = false → listGT b a = false → a = b := by
  intro a
  induction a with
  | nil =>
    intro b _ h2
    cases b with
    | nil => rfl
    | cons y ys => simp [listGT] at h2
  | cons x xs ih =>
    intro b h1 h2
    cases b with
    | nil => simp [listGT] at h1
    | cons y ys =>
      rw [listGT_cons_false_iff] at h1 h2
      have hxy : x = y := by
        by_contra hne
        rcases Nat.lt_or_ge x y with h | h
        · exact h2 (Or.inl h)
        · exact h1 (Or.inl (by omega))
      subst hxy
      have g1 : listGT xs ys = false := by
        rw [Bool.eq_false_iff]; intro hg; exact h1 (Or.inr ⟨rfl, hg⟩)
      have g2 : listGT ys xs = false := by
        rw [Bool.eq_false_iff]; intro hg; exact h2 (Or.inr ⟨rfl, hg⟩)
      rw [ih ys g1 g2]

theorem pairGT_iff (a b : Nat × List Nat) :
    pairGT a b = true ↔ b.1 < a.1 ∨ (a.1 = b.1 ∧ listGT a.2 b.2 = true) := by
  simp only [pairGT]
  by_cases h : b.1 < a.1
  · simp [h]
  · by_cases h2 : a.1 < b.1
    · rw [if_neg h, if_pos h2]
      constructor
      · intro hh; exact absurd hh (by simp)
      · rintro (hh | ⟨hh, _⟩) <;> omega
    · have he : a.1 = b.1 := by omega
      simp [h, h2, he]

theorem pairGT_false_iff (a b : Nat × List Nat) :
    pairGT a b = false ↔ ¬(b.1 < a.1 ∨ (a.1 = b.1 ∧ listGT a.2 b.2 = true)) := by
  rw [← pairGT_iff]
  cases pairGT a b <;> simp

theorem pairGT_irrefl (a : Nat × List Nat) : pairGT a a = false := by
  rw [Bool.eq_false_iff]
  intro h
  rw [pairGT_iff] at h
  rcases h with h | ⟨_, h⟩
  · omega
  · rw [listGT_irrefl] at h; cases h

theorem pairGT_trans {a b c : Nat × List Nat}
    (h1 : pairGT a b = true) (h2 : pairGT b c = true) : pairGT a c = true := by
  rw [pairGT_iff] at h1 h2 ⊢
  rcases h1 with h1 | ⟨he1, h1⟩
  · rcases h2 with h2 | ⟨he2, h2⟩
    · left; omega
    · left; omega
  · rcases h2 with h2 | ⟨he2, h2⟩
    · left; omega
    · right; exact ⟨by omega, listGT_trans _ _ _ h1 h2⟩

theorem pairGT_total {a b : Nat × List Nat}
    (h1 : pairGT a b = false) (h2 : pairGT b a = false) : a = b := by
  rw [pairGT_false_iff] at h1 h2
  have hv : a.1 = b.1 := by
    by_contra hne
    rcases Nat.lt_or_ge a.1 b.1 with h | h
    · exact h2 (Or.inl h)
    · exact h1 (Or.inl (by omega))
  have g1 : listGT a.2 b.2 = false := by
    rw [Bool.eq_false_iff]; intro hg; exact h1 (Or.inr ⟨hv, hg⟩)
  have g2 : listGT b.2 a.2 = false := by
    rw [Bool.eq_false_iff]; intro hg; exact h2 (Or.inr ⟨hv.symm, hg⟩)
  exact Prod.ext hv (listGT_total _ _ g1 g2)

theorem pairGT_negtrans {a b c : Nat × List Nat}
    (h1 : pairGT a b = false) (h2 : pairGT b c = false) : pairGT a c = false := by
  by_contra hac
  rw [Bool.not_eq_false] at hac
  by_cases hba : pairGT b a = true
  · have := pairGT_trans hba hac
    rw [h2] at this; cases this
  · rw [Bool.not_eq_true] at hba
    rw [pairGT_total h1 hba] at hac
    rw [h2] at hac; cases hac

theorem HandRank.val_inj {a b : HandRank} (h : a.val = b.val) : a = b := by
  cases a <;> cases b <;> first | rfl | simp [HandRank.val] at h

theorem HandRank.one_le_val (a : HandRank) : 1 ≤ a.val := by
  cases a <;> decide

theorem listGT_asymm {a b : List Nat} (h : listGT a b = true) : listGT b a = false := by
  by_contra hc
  rw [Bool.not_eq_false] at hc
  have := listGT_trans _ _ _ h hc
  rw [listGT_irrefl] at this
  cases this

theorem listGT_nil_iff (l : List Nat) : listGT l [] = false ↔ l = [] := by
  cases l <;> simp [listGT]

/-! ### C2: evaluate picks the lexicographically greatest 5-card subset -/

theorem sortDescBy_length_foldl (gt : α → α → Bool) :
    ∀ (l acc : List α), (l.foldl (fun a x => insertDescBy gt x a) acc).length
      = acc.length + l.length := by
  intro l
  induction l with
  | nil => intro acc; simp
  | cons x xs ih =>
    intro acc
    have hins : (insertDescBy gt x acc).length = acc.length + 1 := by
      induction acc with
      | nil => rfl
      | cons y ys ihy =>
        simp only [insertDescBy]
        split
        · simp
        · simp [ihy]
    rw [List.foldl_cons, ih, hins, List.length_cons]
    omega

theorem sortDescBy_length (gt : α → α → Bool) (l : List α) :
    (sortDescBy gt l).length = l.length := by
  rw [sortDescBy, sortDescBy_length_foldl]
  simp

theorem sortCardsDesc_ne_nil {cs : List Card} (h : cs ≠ []) :
    sortCardsDesc cs ≠ [] := by
  intro hc
  have := sortDescBy_length (fun c d => d.rank < c.rank) cs
  rw [sortCardsDesc] at hc
  rw [hc] at this
  simp at this
  exact h (List.length_eq_zero.mp this.symm)

/-- Every branch of `_evaluate_five` on a nonempty rank list beats the
loop's initial accumulator `(HIGH_CARD, [])`. -/
theorem evalRanks_gt_init (f : Bool) (R : List Nat) (h : R ≠ []) :
    pairGT (pval (evalRanks f R)) (1, []) = true := by
  have hWne : (if (R == [14, 5, 4, 3, 2]) = true then [5, 4, 3, 2, 1] else R) ≠ [] := by
    split
    · simp
    · exact h
  rw [evalRanks]
  simp only []
  generalize hRW : (if (R == [14, 5, 4, 3, 2]) = true then [5, 4, 3, 2, 1] else R) = W
  rw [hRW] at hWne
  generalize hSC : sortedCounts W = SC
  split_ifs <;> simp [pval, pairGT_iff, HandRank.val]
  all_goals
    rcases List.exists_cons_of_ne_nil hWne with ⟨r, rs, hrs⟩
    rw [hrs]
    rfl

/-- Every branch of `_evaluate_five` on a nonempty card list beats the
loop's initial accumulator `(HIGH_CARD, [])`. -/
theorem evaluateFive_gt_init (cs : List Card) (h : cs ≠ []) :
    pairGT (pval (evaluateFive cs)) (1, []) = true := by
  rw [evaluateFive]
  refine evalRanks_gt_init _ _ ?_
  intro hc
  exact h (List.map_eq_nil_iff.mp hc)

theorem evalStep_cases (best : HandRank × List Nat) (c : List Card) :
    evalStep best c = evaluateFive (sortCardsDesc c) ∨ evalStep best c = best := by
  rw [evalStep]
  split_ifs with h1 h2
  · exact Or.inl rfl
  · left
    rw [Bool.and_eq_true, beq_iff_eq] at h2
    rw [HandRank.val_inj h2.1.symm]
  · exact Or.inr rfl

theorem evalStep_not_lt (best : HandRank × List Nat) (c : List Card) :
    pairGT (pval (evaluateFive (sortCardsDesc c))) (pval (evalStep best c)) = false := by
  rw [evalStep]
  split_ifs with h1 h2
  · exact pairGT_irrefl _
  · rw [Bool.and_eq_true, beq_iff_eq] at h2
    have : pval (best.1, (evaluateFive (sortCardsDesc c)).2)
        = pval (evaluateFive (sortCardsDesc c)) := by
      simp [pval, h2.1]
    rw [this]
    exact pairGT_irrefl _
  · rw [pairGT_false_iff]
    rintro (hlt | ⟨heq, hgt⟩)
    · exact h1 hlt
    · exact h2 (by rw [Bool.and_eq_true, beq_iff_eq]; exact ⟨heq, hgt⟩)

theorem evalStep_not_lt_best (best : HandRank × List Nat) (c : List Card) :
    pairGT (pval best) (pval (evalStep best c)) = false := by
  rw [evalStep]
  split_ifs with h1 h2
  · rw [pairGT_false_iff]
    rintro (hlt | ⟨heq, _⟩)
    · simp only [pval] at hlt; omega
    · simp only [pval] at heq; omega
  · rw [Bool.and_eq_true, beq_iff_eq] at h2
    rw [pairGT_false_iff]
    rintro (hlt | ⟨_, hgt⟩)
    · simp only [pval] at hlt; omega
    · simp only [pval] at hgt
      rw [listGT_asymm h2.2] at hgt
      cases hgt
  · exact pairGT_irrefl _

/-- The fold of `evaluate` returns the greatest evaluation (under the
Python tuple order) among the combinations, or the initial accumulator if
nothing beats it. -/
theorem foldl_evalStep_spec (l : List (List Card)) : ∀ init : HandRank × List Nat,
    ((∃ x ∈ l, List.foldl evalStep init l = evaluateFive (sortCardsDesc x))
       ∨ List.foldl evalStep init l = init) ∧
    (∀ x ∈ l,
       pairGT (pval (evaluateFive (sortCardsDesc x))) (pval (List.foldl evalStep init l)) = false) ∧
    pairGT (pval init) (pval (List.foldl evalStep init l)) = false := by
  induction l with
  | nil =>
    intro init
    exact ⟨Or.inr rfl, by simp, pairGT_irrefl _⟩
  | cons c cs ih =>
    intro init
    obtain ⟨mem, ub, lb⟩ := ih (evalStep init c)
    rw [List.foldl_cons]
    refine ⟨?_, ?_, ?_⟩
    · rcases mem with ⟨x, hx, hex⟩ | hinit
      · exact Or.inl ⟨x, List.mem_cons_of_mem _ hx, hex⟩
      · rcases evalStep_cases init c with hc | hc
        · refine Or.inl ⟨c, List.mem_cons_self _ _, ?_⟩
          rw [hc] at hinit ⊢
          exact hinit
        · refine Or.inr ?_
          rw [hc] at hinit ⊢
          exact hinit
    · intro x hx
      rcases List.mem_cons.mp hx with rfl | hx
      · exact pairGT_negtrans (evalStep_not_lt init x) lb
      · exact ub x hx
    · exact pairGT_negtrans (evalStep_not_lt_best init c) lb

theorem evalStep_init (c : List Card) :
    evalStep (HandRank.HIGH_CARD, []) c = evaluateFive (sortCardsDesc c) := by
  rw [evalStep]
  split_ifs with h1 h2
  · rfl
  · rw [Bool.and_eq_true, beq_iff_eq] at h2
    have h2' : (evaluateFive (sortCardsDesc c)).1 = HandRank.HIGH_CARD :=
      HandRank.val_inj h2.1
    rw [← h2']
  · have h1' : ¬ (1 < (evaluateFive (sortCardsDesc c)).1.val) := by
      simpa [HandRank.val] using h1
    have hge := HandRank.one_le_val (evaluateFive (sortCardsDesc c)).1
    have hv : (evaluateFive (sortCardsDesc c)).1.val = 1 := by omega
    have hr : (evaluateFive (sortCardsDesc c)).1 = HandRank.HIGH_CARD :=
      HandRank.val_inj hv
    have hl : listGT (evaluateFive (sortCardsDesc c)).2 [] = false := by
      by_contra hc
      rw [Bool.not_eq_false] at hc
      exact h2 (by rw [Bool.and_eq_true, beq_iff_eq]; exact ⟨hv, hc⟩)
    rw [listGT_nil_iff] at hl
    rw [← hr, ← hl]

/-- C2: on at least five cards, `evaluate` returns the evaluation of some
5-card combination, no combination evaluates strictly greater under the
`(category.rank_value, tiebreakers)` lexicographic order, and on exactly
five cards the result is the direct five-card evaluation. -/
theorem evaluate_best_of_combos (cards : List Card) :
    (5 ≤ cards.length →
      (∃ combo ∈ List.sublistsLen 5 cards,
         evaluate cards = evaluateFive (sortCardsDesc combo)) ∧
      (∀ combo ∈ List.sublistsLen 5 cards,
         pairGT (pval (evaluateFive (sortCardsDesc combo))) (pval (evaluate cards)) = false)) ∧
    (cards.length = 5 → evaluate cards = evaluateFive (sortCardsDesc cards)) := by
  constructor
  · intro h5
    have hnl : ¬ cards.length < 5 := by omega
    have he : evaluate cards
        = (List.sublistsLen 5 cards).foldl evalStep (HandRank.HIGH_CARD, []) := by
      rw [evaluate, if_neg hnl]
    obtain ⟨mem, ub, _⟩ := foldl_evalStep_spec (List.sublistsLen 5 cards) (HandRank.HIGH_CARD, [])
    constructor
    · rcases mem with ⟨x, hx, hex⟩ | hinit
      · exact ⟨x, hx, he.trans hex⟩
      · exfalso
        have hne : List.sublistsLen 5 cards ≠ [] := by
          intro hc
          have hl := List.length_sublistsLen 5 cards
          rw [hc] at hl
          have := Nat.choose_pos h5
          simp at hl
          omega
        obtain ⟨y, hy⟩ := List.exists_mem_of_ne_nil _ hne
        have hub := ub y hy
        rw [hinit] at hub
        have hylen : y.length = 5 := (List.mem_sublistsLen.mp hy).2
        have hyne : y ≠ [] := by intro hc; rw [hc] at hylen; cases hylen
        have hgt := evaluateFive_gt_init (sortCardsDesc y) (sortCardsDesc_ne_nil hyne)
        have : pval (HandRank.HIGH_CARD, ([] : List Nat)) = (1, []) := rfl
        rw [this] at hub
        rw [hgt] at hub
        cases hub
    · intro x hx
      rw [he]
      exact ub x hx
  · intro h5
    have heq : List.sublistsLen 5 cards = [cards] := by
      rw [← h5]
      exact List.sublistsLen_length cards
    rw [evaluate, if_neg (by omega), heq, List.foldl_cons, List.foldl_nil, evalStep_init]

/-- Witness for C2 at a concrete 7-card input and a concrete 5-card input. -/
theorem evaluate_best_of_combos_witness :
    ((∃ combo ∈ List.sublistsLen 5
        [Card.mk 2 Suit.Hearts, Card.mk 3 Suit.Hearts, Card.mk 4 Suit.Hearts,
         Card.mk 5 Suit.Hearts, Card.mk 6 Suit.Clubs, Card.mk 9 Suit.Hearts,
         Card.mk 13 Suit.Hearts],
       evaluate [Card.mk 2 Suit.Hearts, Card.mk 3 Suit.Hearts, Card.mk 4 Suit.Hearts,
         Card.mk 5 Suit.Hearts, Card.mk 6 Suit.Clubs, Card.mk 9 Suit.Hearts,
         Card.mk 13 Suit.Hearts] = evaluateFive (sortCardsDesc combo)) ∧
     (∀ combo ∈ List.sublistsLen 5
        [Card.mk 2 Suit.Hearts, Card.mk 3 Suit.Hearts, Card.mk 4 Suit.Hearts,
         Card.mk 5 Suit.Hearts, Card.mk 6 Suit.Clubs, Card.mk 9 Suit.Hearts,
         Card.mk 13 Suit.Hearts],
       pairGT (pval (evaluateFive (sortCardsDesc combo)))
         (pval (evaluate [Card.mk 2 Suit.Hearts, Card.mk 3 Suit.Hearts, Card.mk 4 Suit.Hearts,
           Card.mk 5 Suit.Hearts, Card.mk 6 Suit.Clubs, Card.mk 9 Suit.Hearts,
           Card.mk 13 Suit.Hearts])) = false)) ∧
    evaluate [Card.mk 14 Suit.Hearts, Card.mk 5 Suit.Clubs, Card.mk 4 Suit.Hearts,
        Card.mk 3 Suit.Hearts, Card.mk 2 Suit.Hearts]
      = evaluateFive (sortCardsDesc
          [Card.mk 14 Suit.Hearts, Card.mk 5 Suit.Clubs, Card.mk 4 Suit.Hearts,
           Card.mk 3 Suit.Hearts, Card.mk 2 Suit.Hearts]) :=
  ⟨(evaluate_best_of_combos _).1 (by decide),
   (evaluate_best_of_combos _).2 (by decide)⟩

/-! ### C7: the wheel straight -/

/-- `len(set(suits)) == 1` holds exactly when all five suits coincide. -/
theorem suits_dedup_one :
    ∀ s1 s2 s3 s4 s5 : Suit,
      (([s1, s2, s3, s4, s5].dedup.length == 1) = true)
        ↔ (s1 = s2 ∧ s1 = s3 ∧ s1 = s4 ∧ s1 = s5) := by
  decide

/-- C7: a five-card hand with ranks {14,5,4,3,2} evaluates as a straight
(straight flush when suited, never a royal flush) with tiebreak sequence
[5,4,3,2,1], which the engine's comparison ranks strictly below a 6-high
straight; and a generic mixed-suit straight is any five consecutive
descending ranks (5 distinct ranks with max − min = 4). -/
theorem wheel_straight (s1 s2 s3 s4 s5 : Suit) (m : Nat)
    (h6 : 6 ≤ m) (h14 : m ≤ 14) :
    (evaluateFive [Card.mk 14 s1, Card.mk 5 s2, Card.mk 4 s3, Card.mk 3 s4, Card.mk 2 s5]
       = ((if s1 = s2 ∧ s1 = s3 ∧ s1 = s4 ∧ s1 = s5 then HandRank.STRAIGHT_FLUSH
           else HandRank.STRAIGHT), [5, 4, 3, 2, 1])) ∧
    (evaluateFive [Card.mk 14 s1, Card.mk 5 s2, Card.mk 4 s3, Card.mk 3 s4,
        Card.mk 2 s5]).1 ≠ HandRank.ROYAL_FLUSH ∧
    pairGT (pval (HandRank.STRAIGHT, [6, 5, 4, 3, 2]))
      (pval (HandRank.STRAIGHT, [5, 4, 3, 2, 1])) = true ∧
    (¬(s1 = s2 ∧ s1 = s3 ∧ s1 = s4 ∧ s1 = s5) →
      evaluateFive [Card.mk m s1, Card.mk (m - 1) s2, Card.mk (m - 2) s3,
          Card.mk (m - 3) s4, Card.mk (m - 4) s5]
        = (HandRank.STRAIGHT, [m, m - 1, m - 2, m - 3, m - 4])) := by
  have hwheel : evaluateFive [Card.mk 14 s1, Card.mk 5 s2, Card.mk 4 s3, Card.mk 3 s4, Card.mk 2 s5]
      = ((if s1 = s2 ∧ s1 = s3 ∧ s1 = s4 ∧ s1 = s5 then HandRank.STRAIGHT_FLUSH
          else HandRank.STRAIGHT), [5, 4, 3, 2, 1]) := by
    have hb : evaluateFive [Card.mk 14 s1, Card.mk 5 s2, Card.mk 4 s3, Card.mk 3 s4, Card.mk 2 s5]
        = evalRanks ([s1, s2, s3, s4, s5].dedup.length == 1) [14, 5, 4, 3, 2] := rfl
    rw [hb]
    by_cases hc : s1 = s2 ∧ s1 = s3 ∧ s1 = s4 ∧ s1 = s5
    · rw [if_pos hc]
      obtain ⟨h2, h3, h4, h5⟩ := hc
      subst h2; subst h3; subst h4; subst h5
      cases s1 <;> decide
    · rw [if_neg hc]
      have hfb : ([s1, s2, s3, s4, s5].dedup.length == 1) = false := by
        cases hx : ([s1, s2, s3, s4, s5].dedup.length == 1)
        · rfl
        · exact absurd ((suits_dedup_one s1 s2 s3 s4 s5).mp hx) hc
      rw [hfb]
      decide
  refine ⟨hwheel, ?_, by decide, ?_⟩
  · rw [hwheel]
    split <;> decide
  · intro hne
    have hfb : ([s1, s2, s3, s4, s5].dedup.length == 1) = false := by
      cases hx : ([s1, s2, s3, s4, s5].dedup.length == 1)
      · rfl
      · exact absurd ((suits_dedup_one s1 s2 s3 s4 s5).mp hx) hne
    have hb : evaluateFive [Card.mk m s1, Card.mk (m - 1) s2, Card.mk (m - 2) s3,
        Card.mk (m - 3) s4, Card.mk (m - 4) s5]
        = evalRanks ([s1, s2, s3, s4, s5].dedup.length == 1)
            [m, m - 1, m - 2, m - 3, m - 4] := rfl
    rw [hb, hfb]
    interval_cases m <;> decide

/-- Witness for C7 at mixed suits and a 9-high straight. -/
theorem wheel_straight_witness :
    (6 ≤ 9 ∧ 9 ≤ 14) ∧
    ((evaluateFive [Card.mk 14 Suit.Hearts, Card.mk 5 Suit.Clubs, Card.mk 4 Suit.Hearts,
        Card.mk 3 Suit.Hearts, Card.mk 2 Suit.Hearts]
       = ((if Suit.Hearts = Suit.Clubs ∧ Suit.Hearts = Suit.Hearts ∧ Suit.Hearts = Suit.Hearts
             ∧ Suit.Hearts = Suit.Hearts then HandRank.STRAIGHT_FLUSH
           else HandRank.STRAIGHT), [5, 4, 3, 2, 1])) ∧
     (evaluateFive [Card.mk 14 Suit.Hearts, Card.mk 5 Suit.Clubs, Card.mk 4 Suit.Hearts,
        Card.mk 3 Suit.Hearts, Card.mk 2 Suit.Hearts]).1 ≠ HandRank.ROYAL_FLUSH ∧
     pairGT (pval (HandRank.STRAIGHT, [6, 5, 4, 3, 2]))
       (pval (HandRank.STRAIGHT, [5, 4, 3, 2, 1])) = true ∧
     (¬(Suit.Hearts = Suit.Clubs ∧ Suit.Hearts = Suit.Hearts ∧ Suit.Hearts = Suit.Hearts
          ∧ Suit.Hearts = Suit.Hearts) →
       evaluateFive [Card.mk 9 Suit.Hearts, Card.mk (9 - 1) Suit.Clubs,
           Card.mk (9 - 2) Suit.Hearts, Card.mk (9 - 3) Suit.Hearts,
           Card.mk (9 - 4) Suit.Hearts]
         = (HandRank.STRAIGHT, [9, 9 - 1, 9 - 2, 9 - 3, 9 - 4]))) :=
  ⟨by decide,
   wheel_straight Suit.Hearts Suit.Clubs Suit.Hearts Suit.Hearts Suit.Hearts 9
     (by decide) (by decide)⟩

/-! ### C10: evaluator totality below five cards -/

/-- C10: for every input of fewer than 5 cards (the empty list included),
`HandEvaluator.evaluate` does not fail: it returns `(HIGH_CARD, [])`. -/
theorem evaluate_short_input (cards : List Card) (h : cards.length < 5) :
    evaluate cards = (HandRank.HIGH_CARD, []) := by
  simp [evaluate, h]

/-- Witness for C10 at the empty list. -/
theorem evaluate_short_input_witness :
    ([] : List Card).length < 5 ∧ evaluate [] = (HandRank.HIGH_CARD, []) :=
  ⟨by decide, evaluate_short_input [] (by decide)⟩

/-! ### C3: failed actions leave the state unchanged -/

/-- C3: whenever `player_action` fails (any precondition violation: unknown
player, wrong turn, illegal check, raise below minimum, raise cap, not
enough chips), the engine state at the raise point is exactly the state
before the call: no field was mutated. -/
theorem playerAction_error_atomic (s : EngineState) (pid act : String)
    (amt : Int) (msg : String)
    (h : (playerAction s pid act amt).2 = some msg) :
    (playerAction s pid act amt).1 = s := by
  unfold playerAction at h ⊢
  cases hf : findSeat (fun x => x.id == pid) s.players with
  | none => simp [hf]
  | some pi =>
    simp only [hf] at h ⊢
    split_ifs at h ⊢ <;> simp_all

/-- Witness for C3: a wrong-turn fold attempt on a concrete table fails and
leaves the state untouched. -/
theorem playerAction_error_atomic_witness :
    (playerAction { players := [{ id := "A", name := "A", chips := 100 },
                                { id := "B", name := "B", chips := 100 }],
                    current_player_idx := 0 } "B" "fold" 0).2 = some "Not your turn" ∧
    (playerAction { players := [{ id := "A", name := "A", chips := 100 },
                                { id := "B", name := "B", chips := 100 }],
                    current_player_idx := 0 } "B" "fold" 0).1 =
      { players := [{ id := "A", name := "A", chips := 100 },
                    { id := "B", name := "B", chips := 100 }],
        current_player_idx := 0 } :=
  ⟨by decide,
   playerAction_error_atomic _ "B" "fold" 0 "Not your turn" (by decide)⟩

/-! ### C4: the raise cap rejects further raises -/

/-- C4: once `raise_count` has reached `max_raises_per_street`, a `raise`
by the player on turn fails with the raise-cap error and the call leaves
the whole engine state (in particular `raise_count`) unchanged. -/
theorem raise_cap_blocks (s : EngineState) (pid : String) (amt : Int) (pi : Nat)
    (hfind : findSeat (fun x => x.id == pid) s.players = some pi)
    (hturn : s.players.getD pi dummyPlayer = s.players.getD s.current_player_idx dummyPlayer)
    (hcap : s.max_raises_per_street ≤ s.raise_count) :
    playerAction s pid "raise" amt = (s, some "Raise cap reached") := by
  unfold playerAction
  simp only [hfind]
  rw [hturn]
  simp [hcap]

/-- Witness for C4 on a concrete capped state. -/
theorem raise_cap_blocks_witness :
    playerAction { players := [{ id := "A", name := "A", chips := 100 },
                               { id := "B", name := "B", chips := 100 }],
                   current_player_idx := 0, raise_count := 4,
                   max_raises_per_street := 4 } "A" "raise" 500 =
      ({ players := [{ id := "A", name := "A", chips := 100 },
                     { id := "B", name := "B", chips := 100 }],
         current_player_idx := 0, raise_count := 4,
         max_raises_per_street := 4 }, some "Raise cap reached") :=
  raise_cap_blocks _ "A" 500 0 (by decide) (by decide) (by decide)

/-! ### Generic list lemmas for seat updates -/

theorem getD_set_self {α} (d : α) : ∀ (l : List α) (i : Nat) (v : α), i < l.length →
    (l.set i v).getD i d = v := by
  intro l
  induction l with
  | nil => intro i v h; cases h
  | cons x xs ih =>
    intro i v h
    cases i with
    | zero => rfl
    | succ j =>
      have : j < xs.length := by simpa using h
      simpa using ih j v this

theorem getD_set_ne {α} (d : α) : ∀ (l : List α) (i j : Nat) (v : α), i ≠ j →
    (l.set i v).getD j d = l.getD j d := by
  intro l
  induction l with
  | nil => intro i j v _; rfl
  | cons x xs ih =>
    intro i j v hne
    cases i with
    | zero =>
      cases j with
      | zero => exact absurd rfl hne
      | succ k => rfl
    | succ i' =>
      cases j with
      | zero => rfl
      | succ k => simpa using ih i' k v (by omega)

theorem sum_map_set (f : Player → Int) : ∀ (l : List Player) (i : Nat) (v : Player),
    i < l.length →
    ((l.set i v).map f).sum = (l.map f).sum + f v - f (l.getD i dummyPlayer) := by
  intro l
  induction l with
  | nil => intro i v h; cases h
  | cons x xs ih =>
    intro i v h
    cases i with
    | zero => simp [List.set]; ring
    | succ j =>
      have hj : j < xs.length := by simpa using h
      simp only [List.set, List.map_cons, List.sum_cons]
      rw [ih j v hj]
      have : (x :: xs).getD (j + 1) dummyPlayer = xs.getD j dummyPlayer := rfl
      rw [this]
      ring

theorem getD_mem_of_lt {α} (d : α) : ∀ (l : List α) (i : Nat), i < l.length →
    l.getD i d ∈ l := by
  intro l
  induction l with
  | nil => intro i h; cases h
  | cons x xs ih =>
    intro i h
    cases i with
    | zero => exact List.mem_cons_self _ _
    | succ j => exact List.mem_cons_of_mem _ (ih j (by simpa using h))

/-! ### The stable sort is a permutation -/

theorem insertDescBy_perm (gt : α → α → Bool) (x : α) :
    ∀ l : List α, (insertDescBy gt x l).Perm (x :: l) := by
  intro l
  induction l with
  | nil => exact List.Perm.refl _
  | cons y ys ih =>
    simp only [insertDescBy]
    split
    · exact List.Perm.refl _
    · exact (List.Perm.cons y ih).trans (List.Perm.swap x y ys)

theorem foldl_insertDescBy_perm (gt : α → α → Bool) :
    ∀ (l acc : List α), (l.foldl (fun a x => insertDescBy gt x a) acc).Perm (l ++ acc) := by
  intro l
  induction l with
  | nil => intro acc; simp
  | cons c cs ih =>
    intro acc
    rw [List.foldl_cons]
    refine (ih (insertDescBy gt c acc)).trans ?_
    refine (List.Perm.append_left cs (insertDescBy_perm gt c acc)).trans ?_
    exact List.perm_middle

theorem sortDescBy_perm (gt : α → α → Bool) (l : List α) :
    (sortDescBy gt l).Perm l := by
  rw [sortDescBy]
  refine (foldl_insertDescBy_perm gt l []).trans ?_
  simp

/-! ### Winner-set bookkeeping of `_resolve_hand` -/

theorem showdownResults_fst_perm (s : EngineState) :
    ((showdownResults s).map (fun r => r.1)).Perm
      ((List.range s.players.length).filter
        (fun i => (s.players.getD i dummyPlayer).is_active)) := by
  have hgen : ∀ l : List Nat, ((l.map (fun i =>
      (i, (evaluate ((s.players.getD i dummyPlayer).hand ++ s.community_cards)).1,
          (evaluate ((s.players.getD i dummyPlayer).hand ++ s.community_cards)).2))).map
      (fun r => r.1)) = l := by
    intro l
    induction l with
    | nil => rfl
    | cons a as ih => simp only [List.map_cons, ih]
  rw [showdownResults]
  simp only []
  refine (List.Perm.map (fun r : Nat × HandRank × List Nat => r.1)
    (sortDescBy_perm _ _)).trans ?_
  rw [hgen]

theorem winnersIdxOf_sub (s : EngineState) :
    ∀ i ∈ winnersIdxOf s, i < s.players.length := by
  intro i hi
  rw [winnersIdxOf] at hi
  cases hbr : showdownResults s with
  | nil => rw [hbr] at hi; cases hi
  | cons best rest =>
    rw [hbr] at hi
    simp only [List.mem_map, List.mem_filter] at hi
    obtain ⟨r, ⟨hrmem, _⟩, hr1⟩ := hi
    have : r.1 ∈ (showdownResults s).map (fun r => r.1) := by
      rw [hbr]; exact List.mem_map_of_mem _ hrmem
    have := (showdownResults_fst_perm s).mem_iff.mp this
    rw [List.mem_filter, List.mem_range] at this
    rw [← hr1]
    exact this.1

theorem winnersIdxOf_nodup (s : EngineState) : (winnersIdxOf s).Nodup := by
  have hall : ((showdownResults s).map (fun r => r.1)).Nodup := by
    refine (showdownResults_fst_perm s).nodup_iff.mpr ?_
    exact (List.nodup_range _).filter _
  rw [winnersIdxOf]
  cases hbr : showdownResults s with
  | nil => exact List.nodup_nil
  | cons best rest =>
    have hsub : (((best :: rest).filter
        (fun r => r.2.1.val == best.2.1.val && r.2.2 == best.2.2)).map (fun r => r.1)).Sublist
        ((best :: rest).map (fun r => r.1)) :=
      List.Sublist.map _ (List.filter_sublist (best :: rest))
    rw [hbr] at hall
    exact hsub.nodup hall

theorem winnersIdxOf_ne_nil (s : EngineState) (best : Nat × HandRank × List Nat)
    (rest : List (Nat × HandRank × List Nat))
    (hbr : showdownResults s = best :: rest) : winnersIdxOf s ≠ [] := by
  rw [winnersIdxOf, hbr]
  have hpred : (fun r : Nat × HandRank × List Nat =>
      r.2.1.val == best.2.1.val && r.2.2 == best.2.2) best = true := by
    simp
  simp only [List.filter_cons, hpred]
  simp

theorem addChipsAt_length (pl : List Player) (i : Nat) (amt : Int) :
    (addChipsAt pl i amt).length = pl.length := by
  rw [addChipsAt]
  exact List.length_set pl i _

theorem getD_addChipsAt_self (pl : List Player) (i : Nat) (amt : Int)
    (h : i < pl.length) :
    (addChipsAt pl i amt).getD i dummyPlayer
      = { pl.getD i dummyPlayer with chips := (pl.getD i dummyPlayer).chips + amt } := by
  rw [addChipsAt]
  exact getD_set_self dummyPlayer pl i _ h

theorem getD_addChipsAt_ne (pl : List Player) (i j : Nat) (amt : Int)
    (h : i ≠ j) :
    (addChipsAt pl i amt).getD j dummyPlayer = pl.getD j dummyPlayer := by
  rw [addChipsAt]
  exact getD_set_ne dummyPlayer pl i j _ h

theorem sum_addChipsAt (pl : List Player) (i : Nat) (amt : Int)
    (h : i < pl.length) :
    ((addChipsAt pl i amt).map (fun p => p.chips)).sum
      = (pl.map (fun p => p.chips)).sum + amt := by
  rw [addChipsAt, sum_map_set _ pl i _ h]
  simp only []
  ring

theorem foldl_addChipsAt_length (amt : Int) : ∀ (w : List Nat) (pl : List Player),
    (w.foldl (fun acc i => addChipsAt acc i amt) pl).length = pl.length := by
  intro w
  induction w with
  | nil => intro pl; rfl
  | cons i0 w' ih =>
    intro pl
    rw [List.foldl_cons, ih, addChipsAt_length]

theorem foldl_addChipsAt_getD (amt : Int) : ∀ (w : List Nat) (pl : List Player) (j : Nat),
    w.Nodup → (∀ i ∈ w, i < pl.length) →
    (w.foldl (fun acc i => addChipsAt acc i amt) pl).getD j dummyPlayer
      = if j ∈ w then
          { pl.getD j dummyPlayer with chips := (pl.getD j dummyPlayer).chips + amt }
        else pl.getD j dummyPlayer := by
  intro w
  induction w with
  | nil => intro pl j _ _; simp
  | cons i0 w' ih =>
    intro pl j hnd hlt
    rw [List.foldl_cons]
    have hnd' := (List.nodup_cons.mp hnd).2
    have hni0 := (List.nodup_cons.mp hnd).1
    have hlt' : ∀ i ∈ w', i < (addChipsAt pl i0 amt).length := by
      intro i hi
      rw [addChipsAt_length]
      exact hlt i (List.mem_cons_of_mem _ hi)
    rw [ih (addChipsAt pl i0 amt) j hnd' hlt']
    by_cases hj : j = i0
    · subst hj
      have hjw' : j ∉ w' := hni0
      rw [if_neg hjw', if_pos (List.mem_cons_self _ _)]
      exact getD_addChipsAt_self pl j amt (hlt j (List.mem_cons_self _ _))
    · rw [getD_addChipsAt_ne pl i0 j amt (fun hc => hj hc.symm)]
      by_cases hjw : j ∈ w'
      · rw [if_pos hjw, if_pos (List.mem_cons_of_mem _ hjw)]
      · rw [if_neg hjw, if_neg (by
          intro hc
          rcases List.mem_cons.mp hc with hc | hc
          · exact hj hc
          · exact hjw hc)]

theorem foldl_addChipsAt_sum (amt : Int) : ∀ (w : List Nat) (pl : List Player),
    (∀ i ∈ w, i < pl.length) →
    ((w.foldl (fun acc i => addChipsAt acc i amt) pl).map (fun p => p.chips)).sum
      = (pl.map (fun p => p.chips)).sum + w.length * amt := by
  intro w
  induction w with
  | nil => intro pl _; simp
  | cons i0 w' ih =>
    intro pl hlt
    rw [List.foldl_cons]
    have hlt' : ∀ i ∈ w', i < (addChipsAt pl i0 amt).length := by
      intro i hi
      rw [addChipsAt_length]
      exact hlt i (List.mem_cons_of_mem _ hi)
    rw [ih (addChipsAt pl i0 amt) hlt',
        sum_addChipsAt pl i0 amt (hlt i0 (List.mem_cons_self _ _)), List.length_cons]
    push_cast
    ring

/-- The fold-out branch of `_resolve_hand`, fully evaluated. -/
theorem resolveHand_some_eq (s : EngineState) (i : Nat) :
    resolveHand s (some i)
      = { s with
          state := GameState.FINISHED,
          players := addChipsAt s.players i s.pot,
          winners := [(s.players.getD i dummyPlayer).id],
          winning_hand_rank := "Opponents Folded" } := rfl

/-- The showdown branch of `_resolve_hand`, fully evaluated once the sorted
results are known to be nonempty. -/
theorem resolveHand_none_eq (s : EngineState) (best : Nat × HandRank × List Nat)
    (rest : List (Nat × HandRank × List Nat)) (hbr : showdownResults s = best :: rest) :
    resolveHand s none
      = { s with
          state := GameState.FINISHED,
          players := addChipsAt
                   ((winnersIdxOf s).foldl
                     (fun pl i => addChipsAt pl i (Int.fdiv s.pot (winnersIdxOf s).length))
                     s.players)
                   ((winnersIdxOf s).headD 0) (Int.fmod s.pot (winnersIdxOf s).length),
          winners := (winnersIdxOf s).map (fun i =>
                   ((addChipsAt
                     ((winnersIdxOf s).foldl
                       (fun pl i => addChipsAt pl i (Int.fdiv s.pot (winnersIdxOf s).length))
                       s.players)
                     ((winnersIdxOf s).headD 0)
                     (Int.fmod s.pot (winnersIdxOf s).length)).getD i dummyPlayer).id),
          winning_hand_rank := rankTitle best.2.1 } := by
  have hb2 : showdownResults { s with
      state := GameState.SHOWDOWN, winners := [],
      winning_hand_rank := "" } = best :: rest := hbr
  simp only [resolveHand]
  rw [hb2]
  rfl

/-! ### C8: pot split at showdown -/

/-- C8: at a showdown with a nonempty winner list of size k, every winner
other than the sorted-first one gains exactly `pot fdiv k`, the sorted-first
winner additionally receives the remainder `pot fmod k`, non-winners keep
their chips, and the amounts paid out sum to the pot exactly. -/
theorem pot_split (s : EngineState) (hne : showdownResults s ≠ []) :
    1 ≤ (winnersIdxOf s).length ∧
    (∀ j ∈ winnersIdxOf s, j ≠ (winnersIdxOf s).headD 0 →
      ((resolveHand s none).players.getD j dummyPlayer).chips
        = (s.players.getD j dummyPlayer).chips
          + Int.fdiv s.pot (winnersIdxOf s).length) ∧
    (((resolveHand s none).players.getD ((winnersIdxOf s).headD 0) dummyPlayer).chips
      = (s.players.getD ((winnersIdxOf s).headD 0) dummyPlayer).chips
        + Int.fdiv s.pot (winnersIdxOf s).length
        + Int.fmod s.pot (winnersIdxOf s).length) ∧
    (∀ j, j ∉ winnersIdxOf s →
      ((resolveHand s none).players.getD j dummyPlayer).chips
        = (s.players.getD j dummyPlayer).chips) ∧
    (((winnersIdxOf s).length : Int) * Int.fdiv s.pot (winnersIdxOf s).length
        + Int.fmod s.pot (winnersIdxOf s).length = s.pot) ∧
    sumChips (resolveHand s none) = sumChips s + s.pot := by
  obtain ⟨best, rest, hbr⟩ := List.exists_cons_of_ne_nil hne
  have hw : winnersIdxOf s ≠ [] := winnersIdxOf_ne_nil s best rest hbr
  have hnd : (winnersIdxOf s).Nodup := winnersIdxOf_nodup s
  have hsub : ∀ i ∈ winnersIdxOf s, i < s.players.length := winnersIdxOf_sub s
  have hhead : (winnersIdxOf s).headD 0 ∈ winnersIdxOf s := by
    cases hcw : winnersIdxOf s with
    | nil => exact absurd hcw hw
    | cons a l => exact List.mem_cons_self _ _
  have hheadlt : (winnersIdxOf s).headD 0 < s.players.length := hsub _ hhead
  have hpl : (resolveHand s none).players
      = addChipsAt
          ((winnersIdxOf s).foldl
            (fun pl i => addChipsAt pl i (Int.fdiv s.pot (winnersIdxOf s).length))
            s.players)
          ((winnersIdxOf s).headD 0) (Int.fmod s.pot (winnersIdxOf s).length) := by
    rw [resolveHand_none_eq s best rest hbr]
  have hfold1len : ((winnersIdxOf s).foldl
      (fun pl i => addChipsAt pl i (Int.fdiv s.pot (winnersIdxOf s).length))
      s.players).length = s.players.length := foldl_addChipsAt_length _ _ _
  have hheadlt1 : (winnersIdxOf s).headD 0
      < ((winnersIdxOf s).foldl
          (fun pl i => addChipsAt pl i (Int.fdiv s.pot (winnersIdxOf s).length))
          s.players).length := by
    rw [hfold1len]; exact hheadlt
  have hident : ((winnersIdxOf s).length : Int) * Int.fdiv s.pot (winnersIdxOf s).length
      + Int.fmod s.pot (winnersIdxOf s).length = s.pot := by
    have h := Int.fmod_add_fdiv s.pot ((winnersIdxOf s).length : Int)
    linarith
  refine ⟨?_, ?_, ?_, ?_, hident, ?_⟩
  · have := List.length_pos.mpr hw
    omega
  · intro j hj hjh
    rw [hpl, getD_addChipsAt_ne _ _ _ _ (fun hc => hjh hc.symm),
        foldl_addChipsAt_getD _ _ _ _ hnd hsub, if_pos hj]
  · rw [hpl, getD_addChipsAt_self _ _ _ hheadlt1,
        foldl_addChipsAt_getD _ _ _ _ hnd hsub, if_pos hhead]
  · intro j hj
    have hjh : (winnersIdxOf s).headD 0 ≠ j := fun hc => hj (hc ▸ hhead)
    rw [hpl, getD_addChipsAt_ne _ _ _ _ hjh,
        foldl_addChipsAt_getD _ _ _ _ hnd hsub, if_neg hj]
  · rw [sumChips, sumChips, hpl, sum_addChipsAt _ _ _ hheadlt1,
        foldl_addChipsAt_sum _ _ _ hsub]
    linarith

/-- A concrete 2-player showdown fixture: identical royal-flush boards,
empty hole cards, odd pot. -/
def showdownFixture : EngineState :=
  { players := [
      { id := "A", name := "Alice", chips := 100, hand := [], is_active := true },
      { id := "B", name := "Bob", chips := 50, hand := [], is_active := true }],
    community_cards := [Card.mk 14 Suit.Hearts, Card.mk 13 Suit.Hearts,
      Card.mk 12 Suit.Hearts, Card.mk 11 Suit.Hearts, Card.mk 10 Suit.Hearts],
    pot := 31 }

/-- Witness for C8 on the concrete split-pot fixture. -/
theorem pot_split_witness :
    showdownResults showdownFixture ≠ [] ∧
    1 ≤ (winnersIdxOf showdownFixture).length ∧
    sumChips (resolveHand showdownFixture none)
      = sumChips showdownFixture + showdownFixture.pot :=
  ⟨by decide, (pot_split showdownFixture (by decide)).1,
   (pot_split showdownFixture (by decide)).2.2.2.2.2⟩

/-! ### C9: hole-card masking -/

theorem rankTitle_ne (r : HandRank) :
    rankTitle r ≠ "" ∧ rankTitle r ≠ "Opponents Folded" := by
  cases r <;> exact ⟨by decide, by decide⟩

theorem publicHand_masked (s : EngineState) (o : String) (p : Player)
    (hid : p.id ≠ o) (hc : (isActualShowdown s && p.is_active) = false) :
    publicHand s o p = List.replicate p.hand.length none := by
  have h1 : (p.id != o) = true := by simpa [bne_iff_ne] using hid
  rw [publicHand, if_pos (by rw [h1, hc]; rfl)]

theorem publicHand_revealed (s : EngineState) (o : String) (p : Player)
    (hc : (isActualShowdown s && p.is_active) = true ∨ p.id = o) :
    publicHand s o p = p.hand.map some := by
  rw [publicHand, if_neg]
  intro hcond
  rcases hc with hc | hc
  · rw [hc] at hcond
    simp at hcond
  · rw [hc] at hcond
    simp at hcond

/-- C9: hole cards of any player other than the observer are nulled out
whenever no genuine showdown reveal applies; after `_resolve_hand` at a real
showdown every still-active player's hand is shown to every observer; and
after a fold-out resolution no hand other than the observer's own is ever
shown. -/
theorem showdown_masking :
    (∀ (s : EngineState) (o : String) (p : Player), p.id ≠ o →
        (isActualShowdown s && p.is_active) = false →
        publicHand s o p = List.replicate p.hand.length none) ∧
    (∀ (s : EngineState), showdownResults s ≠ [] →
      ∀ (o : String) (p : Player), p.is_active = true →
        publicHand (resolveHand s none) o p = p.hand.map some) ∧
    (∀ (s : EngineState) (i : Nat) (o : String) (p : Player), p.id ≠ o →
        publicHand (resolveHand s (some i)) o p
          = List.replicate p.hand.length none) := by
  refine ⟨publicHand_masked, ?_, ?_⟩
  · intro s hne o p hact
    obtain ⟨best, rest, hbr⟩ := List.exists_cons_of_ne_nil hne
    have hwr : winnersIdxOf s ≠ [] := winnersIdxOf_ne_nil s best rest hbr
    have hsd : isActualShowdown (resolveHand s none) = true := by
      rw [resolveHand_none_eq s best rest hbr, isActualShowdown]
      have h1 := rankTitle_ne best.2.1
      simp [beq_iff_eq, h1.1, h1.2, List.map_eq_nil_iff, hwr]
    exact publicHand_revealed _ o p (Or.inl (by rw [hsd, hact]; rfl))
  · intro s i o p hid
    refine publicHand_masked _ o p hid ?_
    rw [resolveHand_some_eq, isActualShowdown]
    simp

/-- Witness for C9: on the concrete fixture, an active non-observer hand is
revealed after the genuine showdown, and masked both before resolution and
after a fold-out resolution. -/
theorem showdown_masking_witness :
    (({ id := "A", name := "Alice", chips := 100,
        hand := [Card.mk 2 Suit.Clubs, Card.mk 3 Suit.Clubs],
        is_active := true } : Player).id ≠ "observer" ∧
     (isActualShowdown showdownFixture
        && ({ id := "A", name := "Alice", chips := 100,
              hand := [Card.mk 2 Suit.Clubs, Card.mk 3 Suit.Clubs],
              is_active := true } : Player).is_active) = false ∧
     showdownResults showdownFixture ≠ []) ∧
    publicHand showdownFixture "observer"
      { id := "A", name := "Alice", chips := 100,
        hand := [Card.mk 2 Suit.Clubs, Card.mk 3 Suit.Clubs], is_active := true }
      = List.replicate ([Card.mk 2 Suit.Clubs, Card.mk 3 Suit.Clubs] : List Card).length none ∧
    publicHand (resolveHand showdownFixture none) "observer"
      { id := "A", name := "Alice", chips := 100,
        hand := [Card.mk 2 Suit.Clubs, Card.mk 3 Suit.Clubs], is_active := true }
      = [Card.mk 2 Suit.Clubs, Card.mk 3 Suit.Clubs].map some ∧
    publicHand (resolveHand showdownFixture (some 0)) "observer"
      { id := "A", name := "Alice", chips := 100,
        hand := [Card.mk 2 Suit.Clubs, Card.mk 3 Suit.Clubs], is_active := true }
      = List.replicate ([Card.mk 2 Suit.Clubs, Card.mk 3 Suit.Clubs] : List Card).length none :=
  ⟨⟨by decide, by decide, by decide⟩,
   showdown_masking.1 showdownFixture "observer" _ (by decide) (by decide),
   showdown_masking.2.1 showdownFixture (by decide) "observer" _ rfl,
   showdown_masking.2.2 showdownFixture 0 "observer" _ (by decide)⟩

/-! ### Frame and conservation lemmas for the betting state machine -/

theorem findSeat_lt (p : Player → Bool) : ∀ (l : List Player) (i : Nat),
    findSeat p l = some i → i < l.length := by
  intro l
  induction l with
  | nil => intro i h; cases h
  | cons x xs ih =>
    intro i h
    rw [findSeat] at h
    split_ifs at h with hx
    · cases h; simp
    · rw [Option.map_eq_some'] at h
      obtain ⟨j, hj, rfl⟩ := h
      have := ih j hj
      simp
      omega

theorem findSeat_isSome (p : Player → Bool) : ∀ (l : List Player),
    (∃ x ∈ l, p x = true) → findSeat p l ≠ none := by
  intro l
  induction l with
  | nil => rintro ⟨x, hx, _⟩; cases hx
  | cons y ys ih =>
    rintro ⟨x, hx, hpx⟩
    rw [findSeat]
    split_ifs with hy
    · simp
    · rcases List.mem_cons.mp hx with rfl | hx
      · rw [hpx] at hy
        exact absurd rfl hy
      · have := ih ⟨x, hx, hpx⟩
        simp only [ne_eq, Option.map_eq_none']
        exact this

/-- Setting a seat to a player with the same chips keeps the chip sum. -/
theorem sum_set_same_chips : ∀ (pl : List Player) (i : Nat) (v : Player),
    v.chips = (pl.getD i dummyPlayer).chips →
    ((pl.set i v).map (fun p => p.chips)).sum = (pl.map (fun p => p.chips)).sum := by
  intro pl
  induction pl with
  | nil => intro i v _; rfl
  | cons x xs ih =>
    intro i v hv
    cases i with
    | zero =>
      simp only [List.set, List.map_cons, List.sum_cons]
      rw [hv]
      rfl
    | succ j =>
      simp only [List.set, List.map_cons, List.sum_cons]
      rw [ih j v hv]

/-- A chips-preserving per-player map keeps the chip sum. -/
theorem sum_map_chips_preserving (g : Player → Player)
    (hg : ∀ p, (g p).chips = p.chips) : ∀ pl : List Player,
    ((pl.map g).map (fun p => p.chips)).sum = (pl.map (fun p => p.chips)).sum := by
  intro pl
  induction pl with
  | nil => rfl
  | cons x xs ih =>
    simp only [List.map_cons, List.sum_cons, ih, hg]

/-- `dealRound` only appends hole cards: chips, bets and flags of every seat
are untouched, and the seat count is unchanged. -/
theorem dealRound_getD : ∀ (ps : List Player) (d : List Card) (i : Nat),
    (((dealRound ps d).1.getD i dummyPlayer).chips = (ps.getD i dummyPlayer).chips
     ∧ ((dealRound ps d).1.getD i dummyPlayer).current_bet
        = (ps.getD i dummyPlayer).current_bet
     ∧ ((dealRound ps d).1.getD i dummyPlayer).is_active
        = (ps.getD i dummyPlayer).is_active
     ∧ ((dealRound ps d).1.getD i dummyPlayer).is_all_in
        = (ps.getD i dummyPlayer).is_all_in)
    ∧ (dealRound ps d).1.length = ps.length := by
  intro ps
  induction ps with
  | nil => intro d i; exact ⟨⟨rfl, rfl, rfl, rfl⟩, rfl⟩
  | cons p ps ih =>
    intro d i
    rw [dealRound]
    split_ifs with ha
    · cases hpop : popCard d with
      | mk oc d1 =>
        cases oc with
        | some c =>
          simp only []
          constructor
          · cases i with
            | zero => exact ⟨rfl, rfl, rfl, rfl⟩
            | succ j => exact (ih d1 j).1
          · simp only [List.length_cons]
            rw [(ih d1 0).2]
        | none =>
          simp only []
          constructor
          · cases i with
            | zero => exact ⟨rfl, rfl, rfl, rfl⟩
            | succ j => exact (ih d1 j).1
          · simp only [List.length_cons]
            rw [(ih d1 0).2]
    · simp only []
      constructor
      · cases i with
        | zero => exact ⟨rfl, rfl, rfl, rfl⟩
        | succ j => exact (ih d j).1
      · simp only [List.length_cons]
        rw [(ih d 0).2]

/-- `dealRound` keeps the chip sum. -/
theorem dealRound_sum : ∀ (ps : List Player) (d : List Card),
    (((dealRound ps d).1.map (fun p => p.chips)).sum
      = (ps.map (fun p => p.chips)).sum) := by
  intro ps
  induction ps with
  | nil => intro d; rfl
  | cons p ps ih =>
    intro d
    rw [dealRound]
    split_ifs with ha
    · cases hpop : popCard d with
      | mk oc d1 =>
        cases oc with
        | some c => simp only [List.map_cons, List.sum_cons, ih]
        | none => simp only [List.map_cons, List.sum_cons, ih]
    · simp only [List.map_cons, List.sum_cons, ih]

/-- `dealCommunity` only moves cards from the deck to the board. -/
theorem dealCommunity_frame : ∀ (n : Nat) (s : EngineState),
    (dealCommunity n s).players = s.players
    ∧ (dealCommunity n s).pot = s.pot
    ∧ (dealCommunity n s).state = s.state
    ∧ (dealCommunity n s).raise_count = s.raise_count
    ∧ (dealCommunity n s).max_raises_per_street = s.max_raises_per_street
    ∧ (dealCommunity n s).current_bet = s.current_bet := by
  intro n
  induction n with
  | zero => intro s; exact ⟨rfl, rfl, rfl, rfl, rfl, rfl⟩
  | succ m ih =>
    intro s
    rw [dealCommunity]
    cases hpop : popCard s.deck with
    | mk oc d =>
      cases oc with
      | some c => exact ih _
      | none => exact ih _

/-- The inner `Player` record built by `_place_bet_logic` keeps the same
chips regardless of the all-in flag branch. -/
theorem placeBetLogic_fields (s : EngineState) (i : Nat) (amt : Int) :
    (placeBetLogic s i amt).state = s.state
    ∧ (placeBetLogic s i amt).raise_count = s.raise_count
    ∧ (placeBetLogic s i amt).max_raises_per_street = s.max_raises_per_street
    ∧ (placeBetLogic s i amt).players.length = s.players.length
    ∧ (placeBetLogic s i amt).pot
        = s.pot + min (s.players.getD i dummyPlayer).chips amt := by
  rw [placeBetLogic]
  simp only []
  split_ifs <;> exact ⟨rfl, rfl, rfl, by simp [List.length_set], rfl⟩

/-- `_place_bet_logic` conserves chips plus pot. -/
theorem placeBetLogic_conserve (s : EngineState) (i : Nat) (amt : Int)
    (h : i < s.players.length) :
    sumChips (placeBetLogic s i amt) + (placeBetLogic s i amt).pot
      = sumChips s + s.pot := by
  have hpot := (placeBetLogic_fields s i amt).2.2.2.2
  have hpl : sumChips (placeBetLogic s i amt)
      = sumChips s - min (s.players.getD i dummyPlayer).chips amt := by
    rw [sumChips, sumChips]
    rw [placeBetLogic]
    simp only []
    split_ifs <;>
      · rw [sum_map_set _ _ _ _ h]
        simp only []
        ring
  rw [hpl, hpot]
  ring

/-- The `_resolve_hand` no-winner path: nothing is paid out. -/
theorem resolveHand_none_empty (s : EngineState) (h : showdownResults s = []) :
    resolveHand s none
      = { s with state := GameState.SHOWDOWN, winners := [], winning_hand_rank := "" } := by
  have hb2 : showdownResults { s with
      state := GameState.SHOWDOWN, winners := [],
      winning_hand_rank := "" } = [] := h
  simp only [resolveHand]
  rw [hb2]

/-- `_resolve_hand` never touches pot, raise bookkeeping or the blinds. -/
theorem resolveHand_frame (s : EngineState) (wf : Option Nat) :
    (resolveHand s wf).pot = s.pot
    ∧ (resolveHand s wf).raise_count = s.raise_count
    ∧ (resolveHand s wf).max_raises_per_street = s.max_raises_per_street := by
  cases wf with
  | some i => rw [resolveHand_some_eq]; exact ⟨rfl, rfl, rfl⟩
  | none =>
    cases hbr : showdownResults s with
    | nil => rw [resolveHand_none_empty s hbr]; exact ⟨rfl, rfl, rfl⟩
    | cons best rest => rw [resolveHand_none_eq s best rest hbr]; exact ⟨rfl, rfl, rfl⟩

/-- A showdown with winners pays the whole pot into the winners' stacks. -/
theorem resolveHand_none_sum (s : EngineState) (hne : showdownResults s ≠ []) :
    sumChips (resolveHand s none) = sumChips s + s.pot := by
  obtain ⟨best, rest, hbr⟩ := List.exists_cons_of_ne_nil hne
  have hw : winnersIdxOf s ≠ [] := winnersIdxOf_ne_nil s best rest hbr
  have hsub : ∀ i ∈ winnersIdxOf s, i < s.players.length := winnersIdxOf_sub s
  have hhead : (winnersIdxOf s).headD 0 ∈ winnersIdxOf s := by
    cases hcw : winnersIdxOf s with
    | nil => exact absurd hcw hw
    | cons a l => exact List.mem_cons_self _ _
  have hheadlt1 : (winnersIdxOf s).headD 0
      < ((winnersIdxOf s).foldl
          (fun pl i => addChipsAt pl i (Int.fdiv s.pot (winnersIdxOf s).length))
          s.players).length := by
    rw [foldl_addChipsAt_length]
    exact hsub _ hhead
  have hident := Int.fmod_add_fdiv s.pot ((winnersIdxOf s).length : Int)
  rw [sumChips, sumChips, resolveHand_none_eq s best rest hbr]
  simp only []
  rw [sum_addChipsAt _ _ _ hheadlt1, foldl_addChipsAt_sum _ _ _ hsub]
  linarith

/-- `_resolve_hand` either finishes the hand having paid the pot out, or
(with nobody left to evaluate) strands it in SHOWDOWN with nothing paid. -/
theorem resolveHand_sum_state (s : EngineState) (wf : Option Nat)
    (hwf : ∀ i, wf = some i → i < s.players.length) :
    ((resolveHand s wf).state = GameState.FINISHED
       ∧ sumChips (resolveHand s wf) = sumChips s + s.pot)
    ∨ ((resolveHand s wf).state = GameState.SHOWDOWN
       ∧ sumChips (resolveHand s wf) = sumChips s) := by
  cases wf with
  | some i =>
    left
    constructor
    · rw [resolveHand_some_eq]
    · rw [sumChips, sumChips, resolveHand_some_eq]
      simp only []
      exact sum_addChipsAt _ _ _ (hwf i rfl)
  | none =>
    cases hbr : showdownResults s with
    | nil =>
      right
      rw [resolveHand_none_empty s hbr]
      exact ⟨rfl, by rw [sumChips, sumChips]⟩
    | cons best rest =>
      left
      constructor
      · rw [resolveHand_none_eq s best rest hbr]
      · exact resolveHand_none_sum s (by rw [hbr]; exact List.cons_ne_nil _ _)

/-- What one street-advance (or deeper engine call) preserves: the raise cap
is untouched, the raise count is reset or untouched, and chips plus pot are
conserved — absorbed into the stacks exactly when the hand finished. -/
def StreetP (s t : EngineState) : Prop :=
  t.max_raises_per_street = s.max_raises_per_street ∧
  (t.raise_count = 0 ∨ t.raise_count = s.raise_count) ∧
  ((t.state = GameState.FINISHED ∧ sumChips t = sumChips s + s.pot) ∨
   (t.state ≠ GameState.FINISHED ∧ sumChips t = sumChips s ∧ t.pot = s.pot))

theorem StreetP_comp {s m t : EngineState} (h1 : StreetP s m)
    (hm : m.state ≠ GameState.FINISHED) (h2 : StreetP m t) : StreetP s t := by
  obtain ⟨hmax1, hrc1, hcs1⟩ := h1
  rcases hcs1 with ⟨hfin, _⟩ | ⟨_, hsum1, hpot1⟩
  · exact absurd hfin hm
  obtain ⟨hmax2, hrc2, hcs2⟩ := h2
  refine ⟨hmax2.trans hmax1, ?_, ?_⟩
  · rcases hrc2 with h | h
    · exact Or.inl h
    · rcases hrc1 with h' | h'
      · exact Or.inl (by rw [h, h'])
      · exact Or.inr (by rw [h, h'])
  · rcases hcs2 with ⟨hf, hsm⟩ | ⟨hf, hsm, hp⟩
    · exact Or.inl ⟨hf, by rw [hsm, hsum1, hpot1]⟩
    · exact Or.inr ⟨hf, by rw [hsm, hsum1], by rw [hp, hpot1]⟩

theorem street_branch (fuel : Nat)
    (ihL : ∀ s, s.state ≠ GameState.FINISHED → StreetP s (runoutLoop fuel s))
    (s t0 : EngineState)
    (hmax : t0.max_raises_per_street = s.max_raises_per_street)
    (hrc : t0.raise_count = 0)
    (hst : t0.state ≠ GameState.FINISHED)
    (hsum : sumChips t0 = sumChips s) (hpot : t0.pot = s.pot) :
    StreetP s (if needCount t0 < 2 then runoutLoop fuel t0 else t0) := by
  have base : StreetP s t0 := ⟨hmax, Or.inl hrc, Or.inr ⟨hst, hsum, hpot⟩⟩
  split_ifs with h
  · exact StreetP_comp base hst (ihL t0 hst)
  · exact base

theorem streetP_fuel : ∀ fuel : Nat,
    (∀ s, s.state ≠ GameState.FINISHED → StreetP s (nextStreetAux fuel s)) ∧
    (∀ s, s.state ≠ GameState.FINISHED → StreetP s (runoutLoop fuel s)) := by
  intro fuel
  induction fuel with
  | zero =>
    constructor <;>
      · intro s hs
        exact ⟨rfl, Or.inr rfl, Or.inr ⟨hs, rfl, rfl⟩⟩
  | succ fuel ih =>
    obtain ⟨ihA, ihL⟩ := ih
    have hresetsum : ∀ pl : List Player,
        ((pl.map (fun (p : Player) =>
          { p with current_bet := 0, has_acted := false })).map (fun p => p.chips)).sum
          = (pl.map (fun p => p.chips)).sum :=
      sum_map_chips_preserving _ (fun p => rfl)
    constructor
    · intro s hs
      rw [nextStreetAux]
      simp only []
      cases hst : s.state with
      | PREFLOP =>
        refine street_branch fuel ihL s _ ?_ ?_ ?_ ?_ ?_
        · rw [(dealCommunity_frame _ _).2.2.2.2.1]
        · rw [(dealCommunity_frame _ _).2.2.2.1]
        · rw [(dealCommunity_frame _ _).2.2.1]
          simp
        · rw [sumChips, sumChips, (dealCommunity_frame _ _).1]
          exact hresetsum s.players
        · rw [(dealCommunity_frame _ _).2.1]
      | FLOP =>
        refine street_branch fuel ihL s _ ?_ ?_ ?_ ?_ ?_
        · rw [(dealCommunity_frame _ _).2.2.2.2.1]
        · rw [(dealCommunity_frame _ _).2.2.2.1]
        · rw [(dealCommunity_frame _ _).2.2.1]
          simp
        · rw [sumChips, sumChips, (dealCommunity_frame _ _).1]
          exact hresetsum s.players
        · rw [(dealCommunity_frame _ _).2.1]
      | TURN =>
        refine street_branch fuel ihL s _ ?_ ?_ ?_ ?_ ?_
        · rw [(dealCommunity_frame _ _).2.2.2.2.1]
        · rw [(dealCommunity_frame _ _).2.2.2.1]
        · rw [(dealCommunity_frame _ _).2.2.1]
          simp
        · rw [sumChips, sumChips, (dealCommunity_frame _ _).1]
          exact hresetsum s.players
        · rw [(dealCommunity_frame _ _).2.1]
      | RIVER =>
        refine ⟨?_, ?_, ?_⟩
        · rw [(resolveHand_frame _ _).2.2]
        · exact Or.inl (by rw [(resolveHand_frame _ _).2.1])
        · rcases resolveHand_sum_state _ none (fun i h => by cases h) with ⟨hf, hsm⟩ | ⟨hf, hsm⟩
          · refine Or.inl ⟨hf, ?_⟩
            rw [hsm, sumChips, sumChips]
            rw [hresetsum s.players]
          · refine Or.inr ⟨by rw [hf]; simp, ?_, ?_⟩
            · rw [hsm, sumChips, sumChips]
              exact hresetsum s.players
            · rw [(resolveHand_frame _ _).1]
      | SHOWDOWN =>
        refine street_branch fuel ihL s _ rfl rfl ?_ ?_ rfl
        · simp
        · rw [sumChips, sumChips]
          exact hresetsum s.players
      | FINISHED => exact absurd hst hs
    · intro s hs
      rw [runoutLoop]
      rw [if_pos (by simpa [bne_iff_ne] using hs)]
      simp only []
      cases h1 : ((nextStreetAux fuel s).state == GameState.FINISHED) with
      | true => exact ihA s hs
      | false =>
        have hne : (nextStreetAux fuel s).state ≠ GameState.FINISHED := by
          simpa using h1
        exact StreetP_comp (ihA s hs) hne (ihL _ hne)

theorem advanceTurn_P (s : EngineState) (hs : s.state ≠ GameState.FINISHED) :
    StreetP s (advanceTurn s) := by
  rw [advanceTurn]
  simp only []
  split_ifs with h1 h2
  · -- one player left: resolve by fold
    have hlen : (s.players.filter (fun p => p.is_active)).length = 1 := by
      simpa using h1
    have hex : ∃ x ∈ s.players, x.is_active = true := by
      have hne : s.players.filter (fun p => p.is_active) ≠ [] := by
        intro hc
        rw [hc] at hlen
        cases hlen
      obtain ⟨x, hx⟩ := List.exists_mem_of_ne_nil _ hne
      rw [List.mem_filter] at hx
      exact ⟨x, hx.1, hx.2⟩
    have hfs := findSeat_isSome (fun p => p.is_active) s.players hex
    cases hfs2 : findSeat (fun p => p.is_active) s.players with
    | none => exact absurd hfs2 hfs
    | some i =>
      have hwf : ∀ j, (some ((some i : Option Nat).getD 0) : Option Nat) = some j
          → j < s.players.length := by
        intro j hj
        cases hj
        exact findSeat_lt _ _ _ hfs2
      refine ⟨(resolveHand_frame _ _).2.2, Or.inr (resolveHand_frame _ _).2.1, ?_⟩
      rcases resolveHand_sum_state s (some ((some i : Option Nat).getD 0)) hwf
        with ⟨hf, hsm⟩ | ⟨hf, hsm⟩
      · exact Or.inl ⟨hf, hsm⟩
      · exact Or.inr ⟨by rw [hf]; simp, hsm, (resolveHand_frame _ _).1⟩
  · rw [nextStreet]
    exact (streetP_fuel 8).1 s hs
  · exact ⟨rfl, Or.inr rfl, Or.inr ⟨hs, rfl, rfl⟩⟩

theorem actionTail_P (s : EngineState) (pi : Nat) (act : String)
    (hs : s.state ≠ GameState.FINISHED) : StreetP s (actionTail s pi act) := by
  have key : ∀ t0 : EngineState, t0.state = s.state
      → t0.max_raises_per_street = s.max_raises_per_street
      → t0.raise_count = s.raise_count → t0.pot = s.pot
      → sumChips t0 = sumChips s → StreetP s (advanceTurn t0) := by
    intro t0 h1 h2 h3 h4 h5
    have ht0 : t0.state ≠ GameState.FINISHED := by rw [h1]; exact hs
    obtain ⟨hmax, hrc, hcs⟩ := advanceTurn_P t0 ht0
    refine ⟨hmax.trans h2, ?_, ?_⟩
    · rcases hrc with h | h
      · exact Or.inl h
      · exact Or.inr (by rw [h, h3])
    · rcases hcs with ⟨hf, hsm⟩ | ⟨hf, hsm, hp⟩
      · exact Or.inl ⟨hf, by rw [hsm, h5, h4]⟩
      · exact Or.inr ⟨hf, by rw [hsm, h5], by rw [hp, h4]⟩
  rw [actionTail]
  simp only []
  have hsum2 : sumChips { s with
      players := s.players.set pi
        { s.players.getD pi dummyPlayer with has_acted := true } } = sumChips s := by
    rw [sumChips, sumChips]
    simp only []
    exact sum_set_same_chips s.players pi _ rfl
  split_ifs with hact
  · refine key _ rfl rfl rfl rfl ?_
    rw [sumChips]
    simp only []
    rw [sum_map_chips_preserving _ ?_]
    · exact hsum2
    · intro p
      split_ifs <;> rfl
  · exact key _ rfl rfl rfl rfl hsum2

theorem tail_glue (s X t : EngineState) (pi : Nat) (act : String)
    (ht : actionTail X pi act = t)
    (hs : s.state ≠ GameState.FINISHED)
    (hstate : X.state = s.state)
    (hmax : X.max_raises_per_street = s.max_raises_per_street)
    (hcons : sumChips X + X.pot = sumChips s + s.pot) :
    t.max_raises_per_street = s.max_raises_per_street ∧
    ((t.state = GameState.FINISHED ∧ sumChips t = sumChips s + s.pot) ∨
     (t.state ≠ GameState.FINISHED ∧ sumChips t + t.pot = sumChips s + s.pot)) ∧
    (t.raise_count = 0 ∨ t.raise_count = X.raise_count) := by
  subst ht
  have hXs : X.state ≠ GameState.FINISHED := by rw [hstate]; exact hs
  obtain ⟨hm, hrc, hcs⟩ := actionTail_P X pi act hXs
  refine ⟨hm.trans hmax, ?_, hrc⟩
  rcases hcs with ⟨hf, hsm⟩ | ⟨hf, hsm, hp⟩
  · exact Or.inl ⟨hf, by rw [hsm]; linarith⟩
  · exact Or.inr ⟨hf, by rw [hsm, hp]; exact hcons⟩

/-- Every successful `player_action` call from a live hand preserves the
raise cap setting, conserves chips plus pot (absorbing the pot into stacks
exactly when the call finished the hand), and — unless the action was
`allin` — keeps `raise_count` within the cap. -/
theorem playerAction_ok (s : EngineState) (pid act : String) (amt : Int)
    (t : EngineState) (hs : s.state ≠ GameState.FINISHED)
    (hok : playerAction s pid act amt = (t, none)) :
    t.max_raises_per_street = s.max_raises_per_street ∧
    ((t.state = GameState.FINISHED ∧ sumChips t = sumChips s + s.pot) ∨
     (t.state ≠ GameState.FINISHED ∧ sumChips t + t.pot = sumChips s + s.pot)) ∧
    (act ≠ "allin" → s.raise_count ≤ s.max_raises_per_street →
      t.raise_count ≤ s.max_raises_per_street) := by
  simp only [playerAction] at hok
  cases hfs : findSeat (fun x => x.id == pid) s.players with
  | none =>
    rw [hfs] at hok
    simp at hok
  | some pi =>
    rw [hfs] at hok
    have hpi : pi < s.players.length := findSeat_lt _ _ _ hfs
    simp only [] at hok
    split_ifs at hok with h1 h2 h3 h4 h5 h6 h7 h8 h9 h10 h11 <;>
      simp only [Prod.mk.injEq] at hok <;>
      first
      | exact Option.noConfusion hok.2
      | skip
    · -- fold
      have hglue := tail_glue s _ t pi act hok.1 hs rfl rfl
        (by
          rw [sumChips, sumChips]
          simp only []
          rw [sum_set_same_chips s.players pi _ (by rfl)])
      refine ⟨hglue.1, hglue.2.1, ?_⟩
      intro _ hbound
      rcases hglue.2.2 with h | h
      · rw [h]; exact Nat.zero_le _
      · rw [h]; exact hbound
    · -- check
      have hglue := tail_glue s _ t pi act hok.1 hs rfl rfl (by rfl)
      refine ⟨hglue.1, hglue.2.1, ?_⟩
      intro _ hbound
      rcases hglue.2.2 with h | h
      · rw [h]; exact Nat.zero_le _
      · rw [h]; exact hbound
    · -- call
      have hf := placeBetLogic_fields s pi (s.current_bet
        - (s.players.getD pi dummyPlayer).current_bet)
      have hglue := tail_glue s _ t pi act hok.1 hs hf.1 hf.2.2.1
        (placeBetLogic_conserve s pi _ hpi)
      refine ⟨hglue.1, hglue.2.1, ?_⟩
      intro _ hbound
      rcases hglue.2.2 with h | h
      · rw [h]; exact Nat.zero_le _
      · rw [h]
        exact le_of_eq_of_le hf.2.1 hbound
    · -- raise
      have hf := placeBetLogic_fields s pi (amt
        - (s.players.getD pi dummyPlayer).current_bet)
      have hcap : s.raise_count < s.max_raises_per_street := by omega
      have hglue := tail_glue s _ t pi act hok.1 hs hf.1 hf.2.2.1
        (placeBetLogic_conserve s pi _ hpi)
      refine ⟨hglue.1, hglue.2.1, ?_⟩
      intro _ _
      rcases hglue.2.2 with h | h
      · rw [h]; exact Nat.zero_le _
      · rw [h]
        show (placeBetLogic s pi (amt
            - (s.players.getD pi dummyPlayer).current_bet)).raise_count + 1
          ≤ s.max_raises_per_street
        rw [hf.2.1]
        omega
    · -- allin with raise increment
      have hf := placeBetLogic_fields { s with raise_count := s.raise_count + 1 }
        pi (s.players.getD pi dummyPlayer).chips
      have hglue := tail_glue s _ t pi act hok.1 hs hf.1 hf.2.2.1
        (placeBetLogic_conserve { s with raise_count := s.raise_count + 1 } pi _ hpi)
      exact ⟨hglue.1, hglue.2.1, fun hne _ => absurd (by simpa using h10) hne⟩
    · -- allin without raise increment
      have hf := placeBetLogic_fields s pi (s.players.getD pi dummyPlayer).chips
      have hglue := tail_glue s _ t pi act hok.1 hs hf.1 hf.2.2.1
        (placeBetLogic_conserve s pi _ hpi)
      exact ⟨hglue.1, hglue.2.1, fun hne _ => absurd (by simpa using h10) hne⟩
    · -- unknown action string
      have hglue := tail_glue s _ t pi act hok.1 hs rfl rfl (by rfl)
      refine ⟨hglue.1, hglue.2.1, ?_⟩
      intro _ hbound
      rcases hglue.2.2 with h | h
      · rw [h]; exact Nat.zero_le _
      · rw [h]; exact hbound

theorem startHandReset_facts (s : EngineState) (deck : List Card) :
    (startHandReset s deck).pot = 0
    ∧ (startHandReset s deck).state = GameState.PREFLOP
    ∧ sumChips (startHandReset s deck) = sumChips s
    ∧ (startHandReset s deck).players.length = s.players.length
    ∧ (startHandReset s deck).max_raises_per_street = s.max_raises_per_street
    ∧ (startHandReset s deck).small_blind = s.small_blind
    ∧ (startHandReset s deck).big_blind = s.big_blind := by
  refine ⟨rfl, rfl, ?_, by simp [startHandReset], rfl, rfl, rfl⟩
  rw [sumChips, sumChips, startHandReset]
  simp only []
  exact sum_map_chips_preserving resetPlayerForHand (fun p => rfl) s.players

theorem startHandDealt_facts (s : EngineState) :
    (startHandDealt s).pot = s.pot
    ∧ (startHandDealt s).state = s.state
    ∧ sumChips (startHandDealt s) = sumChips s
    ∧ (startHandDealt s).players.length = s.players.length
    ∧ (startHandDealt s).max_raises_per_street = s.max_raises_per_street
    ∧ (startHandDealt s).small_blind = s.small_blind
    ∧ (startHandDealt s).big_blind = s.big_blind
    ∧ (startHandDealt s).dealer_idx = s.dealer_idx := by
  refine ⟨rfl, rfl, ?_, ?_, rfl, rfl, rfl, rfl⟩
  · rw [sumChips, sumChips, startHandDealt]
    simp only []
    rw [dealRound_sum, dealRound_sum]
  · rw [startHandDealt]
    simp only []
    rw [(dealRound_getD _ _ 0).2, (dealRound_getD _ _ 0).2]

/-- A successful `start_hand` establishes the pre-hand accounting: the
chips-plus-pot total equals the chip total before the hand, the street is
PREFLOP, and the raise counter is cleared under an unchanged cap. -/
theorem startHand_ok (s0 : EngineState) (deck : List Card) (s1 : EngineState)
    (h : startHand s0 deck = (s1, none)) :
    sumChips s1 + s1.pot = sumChips s0 ∧
    s1.state = GameState.PREFLOP ∧
    s1.raise_count = 0 ∧
    s1.max_raises_per_street = s0.max_raises_per_street := by
  simp only [startHand] at h
  split_ifs at h with hn h2 <;>
    simp only [Prod.mk.injEq] at h <;>
    first
    | exact Option.noConfusion h.2
    | skip
  obtain ⟨ht, -⟩ := h
  subst ht
  have hn' : 0 < s0.players.length := by
    rcases Nat.eq_zero_or_pos s0.players.length with h0 | h0
    · exact absurd (by simp [h0]) hn
    · exact h0
  have hR := startHandReset_facts s0 deck
  have hD := startHandDealt_facts (startHandReset s0 deck)
  have hlenD : (startHandDealt (startHandReset s0 deck)).players.length
      = s0.players.length := by rw [hD.2.2.2.1, hR.2.2.2.1]
  have hsb : ((startHandDealt (startHandReset s0 deck)).dealer_idx + 1) % s0.players.length
      < (startHandDealt (startHandReset s0 deck)).players.length := by
    rw [hlenD]
    exact Nat.mod_lt _ hn'
  have hP1 := placeBetLogic_fields (startHandDealt (startHandReset s0 deck))
    (((startHandDealt (startHandReset s0 deck)).dealer_idx + 1) % s0.players.length)
    (startHandDealt (startHandReset s0 deck)).small_blind
  have hC1 := placeBetLogic_conserve (startHandDealt (startHandReset s0 deck))
    (((startHandDealt (startHandReset s0 deck)).dealer_idx + 1) % s0.players.length)
    (startHandDealt (startHandReset s0 deck)).small_blind hsb
  have hbb : ((startHandDealt (startHandReset s0 deck)).dealer_idx + 2) % s0.players.length
      < (placeBetLogic (startHandDealt (startHandReset s0 deck))
          (((startHandDealt (startHandReset s0 deck)).dealer_idx + 1) % s0.players.length)
          (startHandDealt (startHandReset s0 deck)).small_blind).players.length := by
    rw [hP1.2.2.2.1, hlenD]
    exact Nat.mod_lt _ hn'
  have hC2 := placeBetLogic_conserve (placeBetLogic (startHandDealt (startHandReset s0 deck))
      (((startHandDealt (startHandReset s0 deck)).dealer_idx + 1) % s0.players.length)
      (startHandDealt (startHandReset s0 deck)).small_blind)
    (((startHandDealt (startHandReset s0 deck)).dealer_idx + 2) % s0.players.length)
    (placeBetLogic (startHandDealt (startHandReset s0 deck))
      (((startHandDealt (startHandReset s0 deck)).dealer_idx + 1) % s0.players.length)
      (startHandDealt (startHandReset s0 deck)).small_blind).big_blind hbb
  have hP2 := placeBetLogic_fields (placeBetLogic (startHandDealt (startHandReset s0 deck))
      (((startHandDealt (startHandReset s0 deck)).dealer_idx + 1) % s0.players.length)
      (startHandDealt (startHandReset s0 deck)).small_blind)
    (((startHandDealt (startHandReset s0 deck)).dealer_idx + 2) % s0.players.length)
    (placeBetLogic (startHandDealt (startHandReset s0 deck))
      (((startHandDealt (startHandReset s0 deck)).dealer_idx + 1) % s0.players.length)
      (startHandDealt (startHandReset s0 deck)).small_blind).big_blind
  refine ⟨?_, ?_, rfl, ?_⟩
  · calc sumChips (placeBetLogic (placeBetLogic (startHandDealt (startHandReset s0 deck))
          (((startHandDealt (startHandReset s0 deck)).dealer_idx + 1) % s0.players.length)
          (startHandDealt (startHandReset s0 deck)).small_blind)
        (((startHandDealt (startHandReset s0 deck)).dealer_idx + 2) % s0.players.length)
        (placeBetLogic (startHandDealt (startHandReset s0 deck))
          (((startHandDealt (startHandReset s0 deck)).dealer_idx + 1) % s0.players.length)
          (startHandDealt (startHandReset s0 deck)).small_blind).big_blind)
        + (placeBetLogic (placeBetLogic (startHandDealt (startHandReset s0 deck))
          (((startHandDealt (startHandReset s0 deck)).dealer_idx + 1) % s0.players.length)
          (startHandDealt (startHandReset s0 deck)).small_blind)
        (((startHandDealt (startHandReset s0 deck)).dealer_idx + 2) % s0.players.length)
        (placeBetLogic (startHandDealt (startHandReset s0 deck))
          (((startHandDealt (startHandReset s0 deck)).dealer_idx + 1) % s0.players.length)
          (startHandDealt (startHandReset s0 deck)).small_blind).big_blind).pot
        = sumChips (startHandDealt (startHandReset s0 deck))
          + (startHandDealt (startHandReset s0 deck)).pot := by rw [hC2, hC1]
      _ = sumChips s0 := by rw [hD.2.2.1, hR.2.2.1, hD.1, hR.1]; ring
  · show (placeBetLogic _ _ _).state = GameState.PREFLOP
    rw [hP2.1, hP1.1, hD.2.1, hR.2.1]
  · show (placeBetLogic _ _ _).max_raises_per_street = s0.max_raises_per_street
    rw [hP2.2.2.1, hP1.2.2.1, hD.2.2.2.2.1, hR.2.2.2.2.1]

/-! ### Reachability during a hand, and C1 / C5 -/

/-- States reachable from `s0` by successful `player_action` calls made while
the hand is live, with every action string satisfying `P`. -/
inductive ReachActs (P : String → Prop) (s0 : EngineState) : EngineState → Prop where
| base : ReachActs P s0 s0
| step {s t : EngineState} (pid act : String) (amt : Int) :
    ReachActs P s0 s → s.state ≠ GameState.FINISHED → P act →
    playerAction s pid act amt = (t, none) → ReachActs P s0 t

/-- C1 (amended): after a successful `start_hand`, chips plus pot equal the
pre-hand chip total; along every legal action sequence the sum
`sum(chips) + pot` is preserved while the hand is live, and once the hand is
FINISHED the players' chips alone hold the whole pre-hand total (the `pot`
field is left stale rather than zeroed, so `sum(chips) + pot` overshoots
after resolution). -/
theorem chip_conservation_amended (s0 : EngineState) (deck : List Card)
    (s1 t : EngineState) (hstart : startHand s0 deck = (s1, none))
    (hreach : ReachActs (fun _ => True) s1 t) :
    sumChips s1 + s1.pot = sumChips s0 ∧
    (t.state ≠ GameState.FINISHED → sumChips t + t.pot = sumChips s0) ∧
    (t.state = GameState.FINISHED → sumChips t = sumChips s0) := by
  obtain ⟨hsum, hst, -, -⟩ := startHand_ok s0 deck s1 hstart
  refine ⟨hsum, ?_⟩
  induction hreach with
  | base =>
    constructor
    · intro _; exact hsum
    · intro hf; rw [hst] at hf; exact absurd hf (by simp)
  | @step s t pid act amt hr hne hP hok ih =>
    obtain ⟨ih1, ih2⟩ := ih
    have hcons : sumChips s + s.pot = sumChips s0 := ih1 hne
    obtain ⟨-, hchip, -⟩ := playerAction_ok s pid act amt t hne hok
    rcases hchip with ⟨hf, hsm⟩ | ⟨hf, hsm⟩
    · exact ⟨fun hne2 => absurd hf hne2, fun _ => by rw [hsm]; exact hcons⟩
    · exact ⟨fun _ => hsm.trans hcons, fun hf2 => absurd hf2 hf⟩

/-- C5 (amended): `raise_count` is a natural number (so `0 ≤ raise_count`
always), and along every legal sequence with no `allin` action it never
exceeds `max_raises_per_street`; a raising `allin` can push it past the cap
(see the counterexample). -/
theorem raise_count_bounded_amended (s0 : EngineState) (deck : List Card)
    (s1 t : EngineState) (hstart : startHand s0 deck = (s1, none))
    (hreach : ReachActs (fun a => a ≠ "allin") s1 t) :
    0 ≤ t.raise_count ∧ t.raise_count ≤ t.max_raises_per_street := by
  obtain ⟨-, -, hrc0, -⟩ := startHand_ok s0 deck s1 hstart
  refine ⟨Nat.zero_le _, ?_⟩
  induction hreach with
  | base => rw [hrc0]; exact Nat.zero_le _
  | @step s t pid act amt hr hne hP hok ih =>
    obtain ⟨hmax, -, hrc⟩ := playerAction_ok s pid act amt t hne hok
    rw [hmax]
    exact hrc hP ih

/-- A concrete two-seat table with 1000 chips each. -/
def twoPlayerTable : EngineState :=
  { players := [{ id := "A", name := "A", chips := 1000 },
                { id := "B", name := "B", chips := 1000 }] }

/-- Counterexample to C1 as stated: a legal `start_hand` followed by a legal
fold leaves `sum(chips) + pot = 2030 ≠ 2000`, because `_resolve_hand` pays
the pot into the winner's stack without zeroing `pot`; the chips alone do
return to 2000. -/
theorem chip_conservation_cex :
    (startHand twoPlayerTable fullDeck).2 = none ∧
    (playerAction (startHand twoPlayerTable fullDeck).1 "A" "fold" 0).2 = none ∧
    sumChips (startHand twoPlayerTable fullDeck).1
      + (startHand twoPlayerTable fullDeck).1.pot = 2000 ∧
    (playerAction (startHand twoPlayerTable fullDeck).1 "A" "fold" 0).1.state
      = GameState.FINISHED ∧
    sumChips (playerAction (startHand twoPlayerTable fullDeck).1 "A" "fold" 0).1 = 2000 ∧
    sumChips (playerAction (startHand twoPlayerTable fullDeck).1 "A" "fold" 0).1
      + (playerAction (startHand twoPlayerTable fullDeck).1 "A" "fold" 0).1.pot
      = 2030 := by
  refine ⟨?_, ?_, ?_, ?_, ?_, ?_⟩ <;> decide

/-- Witness for the amended C1, applied to the concrete fold-out hand. -/
theorem chip_conservation_amended_witness :
    startHand twoPlayerTable fullDeck
      = ((startHand twoPlayerTable fullDeck).1, none) ∧
    (sumChips (startHand twoPlayerTable fullDeck).1
        + (startHand twoPlayerTable fullDeck).1.pot = sumChips twoPlayerTable ∧
     ((playerAction (startHand twoPlayerTable fullDeck).1 "A" "fold" 0).1.state
        ≠ GameState.FINISHED →
      sumChips (playerAction (startHand twoPlayerTable fullDeck).1 "A" "fold" 0).1
        + (playerAction (startHand twoPlayerTable fullDeck).1 "A" "fold" 0).1.pot
        = sumChips twoPlayerTable) ∧
     ((playerAction (startHand twoPlayerTable fullDeck).1 "A" "fold" 0).1.state
        = GameState.FINISHED →
      sumChips (playerAction (startHand twoPlayerTable fullDeck).1 "A" "fold" 0).1
        = sumChips twoPlayerTable)) :=
  ⟨by decide,
   chip_conservation_amended twoPlayerTable fullDeck (startHand twoPlayerTable fullDeck).1
     (playerAction (startHand twoPlayerTable fullDeck).1 "A" "fold" 0).1 (by decide)
     (@ReachActs.step (fun _ => True) (startHand twoPlayerTable fullDeck).1
       (startHand twoPlayerTable fullDeck).1
       (playerAction (startHand twoPlayerTable fullDeck).1 "A" "fold" 0).1
       "A" "fold" 0 ReachActs.base (by decide) trivial (by decide))⟩

def c5s1 : EngineState := (startHand twoPlayerTable fullDeck).1
def c5r1 : EngineState × Option String := playerAction c5s1 "A" "raise" 40
def c5r2 : EngineState × Option String := playerAction c5r1.1 "B" "raise" 60
def c5r3 : EngineState × Option String := playerAction c5r2.1 "A" "raise" 80
def c5r4 : EngineState × Option String := playerAction c5r3.1 "B" "raise" 100
def c5r5 : EngineState × Option String := playerAction c5r4.1 "A" "allin" 0

/-- Counterexample to C5 as stated: four legal raises reach the cap, and a
legal raising `allin` then pushes `raise_count` to 5, above
`max_raises_per_street = 4`, in a state reachable by successful actions. -/
theorem raise_count_bound_cex :
    (startHand twoPlayerTable fullDeck).2 = none ∧
    ReachActs (fun _ => True) c5s1 c5r5.1 ∧
    c5r4.1.raise_count = 4 ∧
    c5r5.1.raise_count = 5 ∧
    c5r5.1.max_raises_per_street = 4 ∧
    ¬ c5r5.1.raise_count ≤ c5r5.1.max_raises_per_street := by
  refine ⟨by decide, ?_, by decide, by decide, by decide, by decide⟩
  exact @ReachActs.step (fun _ => True) c5s1 c5r4.1 c5r5.1 "A" "allin" 0
    (@ReachActs.step (fun _ => True) c5s1 c5r3.1 c5r4.1 "B" "raise" 100
      (@ReachActs.step (fun _ => True) c5s1 c5r2.1 c5r3.1 "A" "raise" 80
        (@ReachActs.step (fun _ => True) c5s1 c5r1.1 c5r2.1 "B" "raise" 60
          (@ReachActs.step (fun _ => True) c5s1 c5s1 c5r1.1 "A" "raise" 40 ReachActs.base
            (by decide) trivial (by decide))
          (by decide) trivial (by decide))
        (by decide) trivial (by decide))
      (by decide) trivial (by decide))
    (by decide) trivial (by decide)

/-- Witness for the amended C5: the no-allin prefix of four raises stays at
the cap. -/
theorem raise_count_bounded_amended_witness :
    startHand twoPlayerTable fullDeck
      = ((startHand twoPlayerTable fullDeck).1, none) ∧
    (0 ≤ c5r4.1.raise_count
      ∧ c5r4.1.raise_count ≤ c5r4.1.max_raises_per_street) :=
  ⟨by decide,
   raise_count_bounded_amended twoPlayerTable fullDeck c5s1 c5r4.1 (by decide)
     (@ReachActs.step (fun a => a ≠ "allin") c5s1 c5r3.1 c5r4.1 "B" "raise" 100
       (@ReachActs.step (fun a => a ≠ "allin") c5s1 c5r2.1 c5r3.1 "A" "raise" 80
         (@ReachActs.step (fun a => a ≠ "allin") c5s1 c5r1.1 c5r2.1 "B" "raise" 60
           (@ReachActs.step (fun a => a ≠ "allin") c5s1 c5s1 c5r1.1 "A" "raise" 40
             ReachActs.base (by decide) (by decide) (by decide))
           (by decide) (by decide) (by decide))
         (by decide) (by decide) (by decide))
       (by decide) (by decide) (by decide))⟩

/-! ### C6: the current-bet invariant -/

theorem le_foldl_max : ∀ (l : List Int) (a : Int), a ≤ l.foldl max a := by
  intro l
  induction l with
  | nil => intro a; exact le_refl a
  | cons x xs ih =>
    intro a
    exact le_trans (le_max_left a x) (ih (max a x))

theorem mem_le_foldl_max : ∀ (l : List Int) (a x : Int), x ∈ l → x ≤ l.foldl max a := by
  intro l
  induction l with
  | nil => intro a x hx; cases hx
  | cons y ys ih =>
    intro a x hx
    rcases List.mem_cons.mp hx with rfl | hx
    · exact le_trans (le_max_right a x) (le_foldl_max ys (max a x))
    · exact ih (max a y) x hx

theorem foldl_max_le : ∀ (l : List Int) (a c : Int), a ≤ c → (∀ x ∈ l, x ≤ c) →
    l.foldl max a ≤ c := by
  intro l
  induction l with
  | nil => intro a c ha _; exact ha
  | cons y ys ih =>
    intro a c ha hl
    refine ih (max a y) c ?_ ?_
    · exact max_le ha (hl y (List.mem_cons_self _ _))
    · intro x hx; exact hl x (List.mem_cons_of_mem _ hx)

theorem foldl_max_mem : ∀ (l : List Int) (a : Int), l.foldl max a = a ∨ l.foldl max a ∈ l := by
  intro l
  induction l with
  | nil => intro a; exact Or.inl rfl
  | cons y ys ih =>
    intro a
    rcases ih (max a y) with h | h
    · rcases max_cases a y with ⟨he, _⟩ | ⟨he, _⟩
      · rw [List.foldl_cons, h, he]; exact Or.inl rfl
      · rw [List.foldl_cons, h, he]; exact Or.inr (List.mem_cons_self _ _)
    · exact Or.inr (List.mem_cons_of_mem _ h)

theorem maxActiveBet_nonneg (pl : List Player) : 0 ≤ maxActiveBet pl :=
  le_foldl_max _ 0

theorem le_maxActiveBet (pl : List Player) (p : Player) (hp : p ∈ pl)
    (ha : p.is_active = true) : p.current_bet ≤ maxActiveBet pl := by
  refine mem_le_foldl_max _ 0 _ ?_
  exact List.mem_map_of_mem _ (List.mem_filter.mpr ⟨hp, ha⟩)

theorem maxActiveBet_le (pl : List Player) (c : Int) (h0 : 0 ≤ c)
    (h : ∀ p ∈ pl, p.is_active = true → p.current_bet ≤ c) : maxActiveBet pl ≤ c := by
  refine foldl_max_le _ 0 c h0 ?_
  intro x hx
  rw [List.mem_map] at hx
  obtain ⟨p, hp, rfl⟩ := hx
  rw [List.mem_filter] at hp
  exact h p hp.1 hp.2

theorem maxActiveBet_eq (pl : List Player) (c : Int) (h0 : 0 ≤ c)
    (hub : ∀ p ∈ pl, p.is_active = true → p.current_bet ≤ c)
    (hex : ∃ p ∈ pl, p.is_active = true ∧ p.current_bet = c) :
    maxActiveBet pl = c := by
  obtain ⟨p, hp, ha, hb⟩ := hex
  exact le_antisymm (maxActiveBet_le pl c h0 hub) (hb ▸ le_maxActiveBet pl p hp ha)

theorem maxActiveBet_attain (pl : List Player) :
    maxActiveBet pl = 0
    ∨ ∃ p ∈ pl, p.is_active = true ∧ p.current_bet = maxActiveBet pl := by
  rcases foldl_max_mem ((pl.filter (fun p => p.is_active)).map (fun p => p.current_bet)) 0
    with h | h
  · exact Or.inl h
  · rw [List.mem_map] at h
    obtain ⟨p, hp, hb⟩ := h
    rw [List.mem_filter] at hp
    exact Or.inr ⟨p, hp.1, hp.2, hb⟩

theorem mem_getD {α} (d : α) : ∀ (l : List α) (p : α), p ∈ l →
    ∃ j, j < l.length ∧ l.getD j d = p := by
  intro l
  induction l with
  | nil => intro p hp; cases hp
  | cons x xs ih =>
    intro p hp
    rcases List.mem_cons.mp hp with rfl | hp
    · exact ⟨0, by simp, rfl⟩
    · obtain ⟨j, hj, he⟩ := ih p hp
      exact ⟨j + 1, by simpa using hj, he⟩

theorem placeBetLogic_blinds (s : EngineState) (i : Nat) (amt : Int) :
    (placeBetLogic s i amt).big_blind = s.big_blind
    ∧ (placeBetLogic s i amt).small_blind = s.small_blind
    ∧ (placeBetLogic s i amt).dealer_idx = s.dealer_idx := by
  rw [placeBetLogic]
  simp only []
  split_ifs <;> exact ⟨rfl, rfl, rfl⟩

theorem placeBetLogic_getD_self (s : EngineState) (i : Nat) (amt : Int)
    (h : i < s.players.length) :
    ((placeBetLogic s i amt).players.getD i dummyPlayer).current_bet
      = (s.players.getD i dummyPlayer).current_bet
        + min (s.players.getD i dummyPlayer).chips amt
    ∧ ((placeBetLogic s i amt).players.getD i dummyPlayer).is_active
      = (s.players.getD i dummyPlayer).is_active := by
  rw [placeBetLogic]
  simp only []
  split_ifs <;>
    · constructor
      · rw [getD_set_self dummyPlayer _ _ _ h]
      · rw [getD_set_self dummyPlayer _ _ _ h]

theorem placeBetLogic_getD_ne (s : EngineState) (i j : Nat) (amt : Int)
    (hne : i ≠ j) :
    (placeBetLogic s i amt).players.getD j dummyPlayer
      = s.players.getD j dummyPlayer := by
  rw [placeBetLogic]
  simp only []
  split_ifs <;> exact getD_set_ne dummyPlayer _ _ _ _ hne

/-- `_place_bet_logic` updates `current_bet` to the bettor's new street
commitment exactly when it exceeds the old one. -/
theorem placeBetLogic_cb (s : EngineState) (i : Nat) (amt : Int) :
    (placeBetLogic s i amt).current_bet
      = if s.current_bet < (s.players.getD i dummyPlayer).current_bet
            + min (s.players.getD i dummyPlayer).chips amt then
          (s.players.getD i dummyPlayer).current_bet
            + min (s.players.getD i dummyPlayer).chips amt
        else s.current_bet := by
  rw [placeBetLogic]
  simp only []
  split_ifs <;> rfl

theorem resetMap_getD : ∀ (pl : List Player) (j : Nat), j < pl.length →
    (pl.map resetPlayerForHand).getD j dummyPlayer
      = resetPlayerForHand (pl.getD j dummyPlayer) := by
  intro pl
  induction pl with
  | nil => intro j hj; cases hj
  | cons x xs ih =>
    intro j hj
    cases j with
    | zero => rfl
    | succ k => exact ih k (by simpa using hj)

theorem mod_succ_ne (a n : Nat) (hn : 2 ≤ n) : a % n ≠ (a + 1) % n := by
  have hx : a % n < n := Nat.mod_lt _ (by omega)
  rw [← Nat.mod_add_mod]
  by_cases h : a % n + 1 < n
  · rw [Nat.mod_eq_of_lt h]
    omega
  · have he : a % n + 1 = n := by omega
    rw [he, Nat.mod_self]
    omega

theorem mod_succ_ne' (a b n : Nat) (hab : b = a + 1) (hn : 2 ≤ n) : a % n ≠ b % n := by
  subst hab
  exact mod_succ_ne a n hn

theorem startHandReset_getD (s : EngineState) (deck : List Card) (j : Nat)
    (hj : j < s.players.length) :
    (startHandReset s deck).players.getD j dummyPlayer
      = resetPlayerForHand (s.players.getD j dummyPlayer) := by
  rw [startHandReset]
  simp only []
  exact resetMap_getD s.players j hj

theorem startHandDealt_getD (s : EngineState) (j : Nat) :
    ((startHandDealt s).players.getD j dummyPlayer).current_bet
      = (s.players.getD j dummyPlayer).current_bet
    ∧ ((startHandDealt s).players.getD j dummyPlayer).chips
      = (s.players.getD j dummyPlayer).chips
    ∧ ((startHandDealt s).players.getD j dummyPlayer).is_active
      = (s.players.getD j dummyPlayer).is_active := by
  rw [startHandDealt]
  simp only []
  refine ⟨?_, ?_, ?_⟩
  · rw [(dealRound_getD _ _ j).1.2.1, (dealRound_getD _ _ j).1.2.1]
  · rw [(dealRound_getD _ _ j).1.1, (dealRound_getD _ _ j).1.1]
  · rw [(dealRound_getD _ _ j).1.2.2.1, (dealRound_getD _ _ j).1.2.2.1]

/-- Posting a small blind `SB` and then a big blind `BB` on a freshly dealt
state (all street bets zero) leaves the maximal active street bet equal to
`BB`, provided the blind seats differ, `0 < SB ≤ BB`, the big-blind seat is
active and its stack covers `BB`. -/
theorem blinds_establish_cb (D : EngineState) (sb bb : Nat) (SB BB : Int)
    (hsbne : sb ≠ bb)
    (hsblt : sb < D.players.length) (hbblt : bb < D.players.length)
    (hbet : ∀ j, j < D.players.length →
      (D.players.getD j dummyPlayer).current_bet = 0)
    (hact : (D.players.getD bb dummyPlayer).is_active = true)
    (h0BB : 0 < BB) (hSBBB : SB ≤ BB)
    (hcover : BB ≤ (D.players.getD bb dummyPlayer).chips) :
    maxActiveBet (placeBetLogic (placeBetLogic D sb SB) bb BB).players = BB := by
  have hlen1 : (placeBetLogic D sb SB).players.length = D.players.length :=
    (placeBetLogic_fields D sb SB).2.2.2.1
  have hlen2 : (placeBetLogic (placeBetLogic D sb SB) bb BB).players.length
      = D.players.length := by
    rw [(placeBetLogic_fields _ _ _).2.2.2.1, hlen1]
  have hbb1 : (placeBetLogic D sb SB).players.getD bb dummyPlayer
      = D.players.getD bb dummyPlayer :=
    placeBetLogic_getD_ne D sb bb SB hsbne
  have hbblt1 : bb < (placeBetLogic D sb SB).players.length := by
    rw [hlen1]; exact hbblt
  have hself := placeBetLogic_getD_self (placeBetLogic D sb SB) bb BB hbblt1
  have hbbbet : ((placeBetLogic (placeBetLogic D sb SB) bb BB).players.getD bb
      dummyPlayer).current_bet = BB := by
    rw [hself.1, hbb1, hbet bb hbblt, min_eq_right hcover, zero_add]
  have hbbact : ((placeBetLogic (placeBetLogic D sb SB) bb BB).players.getD bb
      dummyPlayer).is_active = true := by
    rw [hself.2, hbb1]; exact hact
  refine maxActiveBet_eq _ BB (le_of_lt h0BB) ?_ ?_
  · intro p hp ha
    obtain ⟨j, hj, hgd⟩ := mem_getD dummyPlayer _ p hp
    rw [hlen2] at hj
    by_cases hjbb : j = bb
    · exact le_of_eq (by rw [← hgd, hjbb, hbbbet])
    · have h2 : (placeBetLogic (placeBetLogic D sb SB) bb BB).players.getD j dummyPlayer
          = (placeBetLogic D sb SB).players.getD j dummyPlayer :=
        placeBetLogic_getD_ne _ bb j BB (fun hc => hjbb hc.symm)
      by_cases hjsb : j = sb
      · have hselfsb := placeBetLogic_getD_self D sb SB hsblt
        rw [← hgd, h2, hjsb, hselfsb.1, hbet sb hsblt]
        have hm : min (D.players.getD sb dummyPlayer).chips SB ≤ SB := min_le_right _ _
        omega
      · rw [← hgd, h2, placeBetLogic_getD_ne D sb j SB (fun hc => hjsb hc.symm),
          hbet j hj]
        exact le_of_lt h0BB
  · exact ⟨_, getD_mem_of_lt dummyPlayer _ bb (by rw [hlen2]; exact hbblt),
      hbbact, hbbbet⟩

/-- A successful `start_hand` establishes `current_bet = max(active bets)`
whenever the blinds are sensible (`0 < small_blind ≤ big_blind`) and the
big-blind seat's stack covers the big blind. -/
theorem startHand_cb_invariant (s0 : EngineState) (deck : List Card) (s1 : EngineState)
    (h : startHand s0 deck = (s1, none))
    (hpos : 0 < s0.big_blind) (hsble : s0.small_blind ≤ s0.big_blind)
    (hcover : s0.big_blind ≤
      (s0.players.getD ((s0.dealer_idx + 3) % s0.players.length) dummyPlayer).chips) :
    s1.current_bet = maxActiveBet s1.players := by
  simp only [startHand] at h
  split_ifs at h with hn h2 <;>
    simp only [Prod.mk.injEq] at h <;>
    first
    | exact Option.noConfusion h.2
    | skip
  obtain ⟨ht, -⟩ := h
  subst ht
  have hn' : 0 < s0.players.length := by
    rcases Nat.eq_zero_or_pos s0.players.length with h0 | h0
    · exact absurd (by simp [h0]) hn
    · exact h0
  have hn2 : 2 ≤ s0.players.length := by
    have hf := List.length_filter_le (fun p => p.is_active)
      (startHandReset s0 deck).players
    have hlenR := (startHandReset_facts s0 deck).2.2.2.1
    omega
  simp only []
  set D := startHandDealt (startHandReset s0 deck) with hDdef
  have hDsb : D.small_blind = s0.small_blind := by
    rw [hDdef, (startHandDealt_facts _).2.2.2.2.2.1,
      (startHandReset_facts _ _).2.2.2.2.2.1]
  have hDbb : D.big_blind = s0.big_blind := by
    rw [hDdef, (startHandDealt_facts _).2.2.2.2.2.2.1,
      (startHandReset_facts _ _).2.2.2.2.2.2]
  have hd1 : D.dealer_idx = (s0.dealer_idx + 1) % s0.players.length := by
    rw [hDdef, (startHandDealt_facts _).2.2.2.2.2.2.2]
    simp [startHandReset]
  have hlenD : D.players.length = s0.players.length := by
    rw [hDdef, (startHandDealt_facts _).2.2.2.1, (startHandReset_facts _ _).2.2.2.1]
  have hBf : ∀ j, j < s0.players.length →
      (D.players.getD j dummyPlayer).current_bet = 0
      ∧ (D.players.getD j dummyPlayer).chips = (s0.players.getD j dummyPlayer).chips
      ∧ (D.players.getD j dummyPlayer).is_active
          = decide (0 < (s0.players.getD j dummyPlayer).chips) := by
    intro j hj
    rw [hDdef]
    have hdl := startHandDealt_getD (startHandReset s0 deck) j
    have hrs := startHandReset_getD s0 deck j hj
    exact ⟨by rw [hdl.1, hrs]; rfl, by rw [hdl.2.1, hrs]; rfl, by rw [hdl.2.2, hrs]; rfl⟩
  have hsbeq : ((s0.dealer_idx + 1) % s0.players.length + 1) % s0.players.length
      = (s0.dealer_idx + 2) % s0.players.length := by
    rw [Nat.mod_add_mod]
  have hbbeq : ((s0.dealer_idx + 1) % s0.players.length + 2) % s0.players.length
      = (s0.dealer_idx + 3) % s0.players.length := by
    rw [Nat.mod_add_mod]
  rw [(placeBetLogic_blinds _ _ _).1, (placeBetLogic_blinds _ _ _).1, hDbb, hDsb,
    hd1, hsbeq, hbbeq]
  have hsblt : (s0.dealer_idx + 2) % s0.players.length < D.players.length := by
    rw [hlenD]; exact Nat.mod_lt _ hn'
  have hbblt : (s0.dealer_idx + 3) % s0.players.length < D.players.length := by
    rw [hlenD]; exact Nat.mod_lt _ hn'
  have hbblt0 : (s0.dealer_idx + 3) % s0.players.length < s0.players.length :=
    Nat.mod_lt _ hn'
  have hne23 : (s0.dealer_idx + 2) % s0.players.length
      ≠ (s0.dealer_idx + 3) % s0.players.length :=
    mod_succ_ne' _ _ _ (by omega) hn2
  have hact : (D.players.getD ((s0.dealer_idx + 3) % s0.players.length)
      dummyPlayer).is_active = true := by
    rw [(hBf _ hbblt0).2.2]
    exact decide_eq_true (lt_of_lt_of_le hpos hcover)
  have hcov2 : s0.big_blind ≤ (D.players.getD ((s0.dealer_idx + 3) % s0.players.length)
      dummyPlayer).chips := by
    rw [(hBf _ hbblt0).2.1]
    exact hcover
  exact (blinds_establish_cb D _ _ s0.small_blind s0.big_blind hne23 hsblt hbblt
    (fun j hj => (hBf j (by rw [hlenD] at hj; exact hj)).1) hact hpos hsble hcov2).symm

/-- `_place_bet_logic` preserves `current_bet = max(active bets)` when the
bettor is a seated active player, bet amount and stack are non-negative. -/
theorem placeBetLogic_cb_invariant (s : EngineState) (i : Nat) (amt : Int)
    (hi : i < s.players.length)
    (hact : (s.players.getD i dummyPlayer).is_active = true)
    (hamt : 0 ≤ amt) (hchips : 0 ≤ (s.players.getD i dummyPlayer).chips)
    (hinv : s.current_bet = maxActiveBet s.players) :
    (placeBetLogic s i amt).current_bet
      = maxActiveBet (placeBetLogic s i amt).players := by
  have hmin : 0 ≤ min (s.players.getD i dummyPlayer).chips amt := le_min hchips hamt
  have hlen : (placeBetLogic s i amt).players.length = s.players.length :=
    (placeBetLogic_fields s i amt).2.2.2.1
  have hself := placeBetLogic_getD_self s i amt hi
  have h0cb : 0 ≤ s.current_bet := by
    rw [hinv]; exact maxActiveBet_nonneg s.players
  rw [placeBetLogic_cb]
  by_cases hlt : s.current_bet < (s.players.getD i dummyPlayer).current_bet
      + min (s.players.getD i dummyPlayer).chips amt
  · rw [if_pos hlt]
    symm
    refine maxActiveBet_eq _ _ (le_of_lt (lt_of_le_of_lt h0cb hlt)) ?_ ?_
    · intro p hp ha
      obtain ⟨j, hj, hgd⟩ := mem_getD dummyPlayer _ p hp
      rw [hlen] at hj
      by_cases hji : j = i
      · exact le_of_eq (by rw [← hgd, hji, hself.1])
      · have hne := placeBetLogic_getD_ne s i j amt (fun hc => hji hc.symm)
        have ha2 : (s.players.getD j dummyPlayer).is_active = true := by
          rw [← hne, hgd]; exact ha
        have h7 := le_maxActiveBet s.players _ (getD_mem_of_lt dummyPlayer _ _ hj) ha2
        rw [← hinv] at h7
        rw [← hgd, hne]
        exact le_trans h7 (le_of_lt hlt)
    · refine ⟨(placeBetLogic s i amt).players.getD i dummyPlayer,
        getD_mem_of_lt dummyPlayer _ i (by rw [hlen]; exact hi), ?_, hself.1⟩
      rw [hself.2]; exact hact
  · rw [if_neg hlt]
    have hle : (s.players.getD i dummyPlayer).current_bet
        + min (s.players.getD i dummyPlayer).chips amt ≤ s.current_bet :=
      le_of_not_lt hlt
    have hub : maxActiveBet (placeBetLogic s i amt).players ≤ s.current_bet := by
      refine maxActiveBet_le _ _ h0cb ?_
      intro p hp ha
      obtain ⟨j, hj, hgd⟩ := mem_getD dummyPlayer _ p hp
      rw [hlen] at hj
      by_cases hji : j = i
      · refine le_trans (le_of_eq ?_) hle
        rw [← hgd, hji, hself.1]
      · have hne := placeBetLogic_getD_ne s i j amt (fun hc => hji hc.symm)
        have ha2 : (s.players.getD j dummyPlayer).is_active = true := by
          rw [← hne, hgd]; exact ha
        have h7 := le_maxActiveBet s.players _ (getD_mem_of_lt dummyPlayer _ _ hj) ha2
        rw [← hinv] at h7
        rw [← hgd, hne]
        exact h7
    have hlb : s.current_bet ≤ maxActiveBet (placeBetLogic s i amt).players := by
      rcases maxActiveBet_attain s.players with h0 | ⟨q, hq, hqa, hqb⟩
      · rw [hinv, h0]
        exact maxActiveBet_nonneg _
      · obtain ⟨j, hj, hgd⟩ := mem_getD dummyPlayer s.players q hq
        by_cases hji : j = i
        · rw [hji] at hgd
          have h5 := le_maxActiveBet (placeBetLogic s i amt).players
            ((placeBetLogic s i amt).players.getD i dummyPlayer)
            (getD_mem_of_lt dummyPlayer _ i (by rw [hlen]; exact hi))
            (by rw [hself.2]; exact hact)
          rw [hself.1] at h5
          rw [← hgd] at hqb
          rw [hinv, ← hqb]
          omega
        · have hne := placeBetLogic_getD_ne s i j amt (fun hc => hji hc.symm)
          have h5 := le_maxActiveBet (placeBetLogic s i amt).players
            ((placeBetLogic s i amt).players.getD j dummyPlayer)
            (getD_mem_of_lt dummyPlayer _ j (by rw [hlen]; exact hj))
            (by rw [hne, hgd]; exact hqa)
          rw [hinv, ← hqb, ← hgd, ← hne]
          exact h5
    exact le_antisymm hlb hub

/-- A table whose big-blind seat cannot cover the big blind. -/
def shortBBTable : EngineState :=
  { players := [{ id := "A", name := "A", chips := 1000 },
                { id := "B", name := "B", chips := 5 }] }

/-- Counterexample to C6 as stated: with a 5-chip big-blind seat,
`start_hand` succeeds but unconditionally sets `current_bet = 20` while the
largest active street bet is only 10 (small blind 10, short big blind 5). -/
theorem current_bet_invariant_cex :
    (startHand shortBBTable fullDeck).2 = none
    ∧ (startHand shortBBTable fullDeck).1.current_bet = 20
    ∧ maxActiveBet (startHand shortBBTable fullDeck).1.players = 10
    ∧ (20 : Int) ≠ 10 := by
  refine ⟨?_, ?_, ?_, ?_⟩ <;> decide

/-- C6, corrected: `_place_bet_logic` preserves
`current_bet = max(current_bet over active players)`, and a successful
`start_hand` establishes it provided `0 < small_blind ≤ big_blind` and the
big-blind seat's stack covers the big blind; with a short-stacked big-blind
seat `start_hand` breaks the invariant (see the counterexample). -/
theorem current_bet_invariant_amended :
    (∀ (s0 : EngineState) (deck : List Card) (s1 : EngineState),
        startHand s0 deck = (s1, none) →
        0 < s0.big_blind → s0.small_blind ≤ s0.big_blind →
        s0.big_blind ≤ (s0.players.getD ((s0.dealer_idx + 3) % s0.players.length)
          dummyPlayer).chips →
        s1.current_bet = maxActiveBet s1.players)
    ∧ (∀ (s : EngineState) (i : Nat) (amt : Int),
        i < s.players.length →
        (s.players.getD i dummyPlayer).is_active = true →
        0 ≤ amt → 0 ≤ (s.players.getD i dummyPlayer).chips →
        s.current_bet = maxActiveBet s.players →
        (placeBetLogic s i amt).current_bet
          = maxActiveBet (placeBetLogic s i amt).players) :=
  ⟨fun s0 deck s1 h h1 h2 h3 => startHand_cb_invariant s0 deck s1 h h1 h2 h3,
   fun s i amt h1 h2 h3 h4 h5 => placeBetLogic_cb_invariant s i amt h1 h2 h3 h4 h5⟩

/-- Witness for the amended C6: the invariant holds after `start_hand` on the
standard two-player table, and is preserved by a further 20-chip bet. -/
theorem current_bet_invariant_amended_witness :
    (startHand twoPlayerTable fullDeck).2 = none
    ∧ (startHand twoPlayerTable fullDeck).1.current_bet
        = maxActiveBet (startHand twoPlayerTable fullDeck).1.players
    ∧ (placeBetLogic (startHand twoPlayerTable fullDeck).1 0 20).current_bet
        = maxActiveBet (placeBetLogic (startHand twoPlayerTable fullDeck).1 0 20).players := by
  have h1 := current_bet_invariant_amended.1 twoPlayerTable fullDeck
    (startHand twoPlayerTable fullDeck).1 (by decide) (by decide) (by decide) (by decide)
  have h2 := current_bet_invariant_amended.2 (startHand twoPlayerTable fullDeck).1 0 20
    (by decide) (by decide) (by decide) (by decide) h1
  exact ⟨by decide, h1, h2⟩

end Poker
